import Mathlib

/-!
# Azure blob image uploader: shared-key signing and SAS URLs

A shallow embedding of `pkg/components/imguploader/azureblobuploader.go`.

* Go strings are Lean strings; the order used by `sort.Strings` is the
  lexicographic order on code points, which on valid UTF-8 is Go's byte order.
* A Go map (`http.Header`, `url.Values`) is the list of its entries in the
  order in which a `range` loop visits them; `headers[key]` is a lookup by the
  exact key.
* A call that fails yields a `Failure`: a run-time panic (an index out of
  range, a nil dereference), a plain `error`, or an `*Error`.
* Library code that is not part of the package (HMAC-SHA256, base64, XML,
  the HTTP transport, the file system, `azblob`, the case tables of package
  `unicode` for runes above ASCII, `Time.AddDate`) is the record `Lib`.
-/

namespace AzureBlob

/-! ## Strings -/

/-- Go's `a < b` on strings, as lists of characters. -/
def ltChars : List Char → List Char → Bool
  | _, [] => false
  | [], _ :: _ => true
  | a :: as, b :: bs => if a < b then true else if b < a then false else ltChars as bs

/-- The order `sort.Strings` sorts by: `a` may stand before `b` when `b < a` is false. -/
def strLE (a b : String) : Prop := ltChars b.data a.data = false

instance strLE.decidable : DecidableRel strLE := fun a b =>
  inferInstanceAs (Decidable (ltChars b.data a.data = false))

/-- The result of `sort.Strings`: the ascending rearrangement of the slice. -/
def sortStrings (xs : List String) : List String := xs.insertionSort strLE

/-- Go's `strings.HasPrefix`. -/
def HasPrefix (s pre : String) : Bool := pre.data.isPrefixOf s.data

/-- Splitting a list of characters at every occurrence of `sep`. -/
def splitChars (sep : Char) : List Char → List (List Char)
  | [] => [[]]
  | c :: cs =>
    if c = sep then [] :: splitChars sep cs
    else
      match splitChars sep cs with
      | [] => [[c]]
      | h :: t => (c :: h) :: t

/-- Go's `strings.Split(s, sep)` for a separator of one character. -/
def Split (s : String) (sep : Char) : List String := (splitChars sep s.data).map String.mk

/-- Go's `strings.Join`. -/
def Join : List String → String → String
  | [], _ => ""
  | [x], _ => x
  | x :: y :: rest, sep => x ++ sep ++ Join (y :: rest) sep

/-- Go's `strings.ReplaceAll(s, old, new)` for a non-empty `old`, on lists of characters:
the first argument counts the characters of a match that are still to be skipped. -/
def replaceChars (old new : List Char) : Nat → List Char → List Char
  | _, [] => []
  | skip + 1, _ :: cs => replaceChars old new skip cs
  | 0, c :: cs =>
    if old.isPrefixOf (c :: cs) then new ++ replaceChars old new (old.length - 1) cs
    else c :: replaceChars old new 0 cs

/-- Go's `strings.ReplaceAll` for a non-empty `old`. -/
def ReplaceAll (s old new : String) : String := ⟨replaceChars old.data new.data 0 s.data⟩

/-- The bytes of a string, `[]byte(s)`. -/
def bytesOf (s : String) : List UInt8 := s.data.flatMap String.utf8EncodeChar

/-! ## Data model -/

/-- A Go map from strings to string slices (`http.Header`, `url.Values`). -/
abbrev Values := List (String × List String)

/-- The value `headers[key]`: the stored slice, or nil when the key is absent. -/
def Values.get (h : Values) (key : String) : List String :=
  match h.find? (fun e => e.1 == key) with
  | some e => e.2
  | none => []

/-- The assignment `h[key] = value`. -/
def Values.set (h : Values) (key : String) (value : List String) : Values :=
  if h.any (fun e => e.1 == key) then h.map (fun e => if e.1 == key then (key, value) else e)
  else h ++ [(key, value)]

/-- The fields of `url.URL` the uploader reads; `Query` is the map `req.URL.Query()` returns. -/
structure URL where
  Path : String
  Query : Values
deriving DecidableEq, Repr

/-- The fields of `http.Request` the uploader reads and writes. -/
structure Request where
  Method : String
  URL : URL
  Header : Values
  Body : List UInt8
deriving DecidableEq, Repr

/-- The fields of `http.Response` the uploader reads; `Body` is what reading the body
yields and `BodyErr` the error that ends the read, if any. -/
structure Response where
  StatusCode : Int
  Status : String
  Header : Values
  Body : List UInt8
  BodyErr : Option String
deriving DecidableEq, Repr

/-- The type `Auth`. -/
structure Auth where
  Account : String
  Key : String
deriving DecidableEq, Repr

/-- The type `StorageClient`; `Auth` may be nil. The transport is part of `Lib`. -/
structure StorageClient where
  Auth : Option Auth
deriving DecidableEq, Repr

/-- The type `Error`. -/
structure Error where
  Code : Int
  Status : String
  Body : List UInt8
  Header : Values
  AzureCode : String
deriving DecidableEq, Repr

/-- The type `AzureBlobUploader` (without its logger). -/
structure AzureBlobUploader where
  account_name : String
  account_key : String
  container_name : String
  sas_token_expiration_days : Int
deriving DecidableEq, Repr

/-- How a call fails: a run-time panic, a plain `error`, or an `*Error`. -/
inductive Failure where
  | panic (msg : String)
  | err (msg : String)
  | azure (e : Error)
deriving DecidableEq, Repr

/-- The fields of `azblob.BlobSASSignatureValues` that `GetBlobSasUrl` sets; `ExpiryTime` is in
seconds since the Unix epoch, UTC. -/
structure BlobSASSignatureValues where
  Protocol : String
  ExpiryTime : Int
  ContainerName : String
  BlobName : String
  Permissions : String
deriving DecidableEq, Repr

/-- Code and constants from outside `azureblobuploader.go`, taken as parameters. -/
structure Lib where
  /-- The package constant `pngExt`, declared in another file of the package. -/
  pngExt : String
  /-- The case table `unicode.To(unicode.LowerCase, r)`, which `unicode.ToLower` applies to a
  rune above ASCII. -/
  lowerCase : Char → Char
  /-- The case table `unicode.To(unicode.UpperCase, r)`, which `unicode.ToUpper` applies to a
  rune above ASCII. -/
  upperCase : Char → Char
  /-- The Unix time of `t.AddDate(0, 0, days)`, for the UTC time `t` given by its Unix time. -/
  AddDate : (t : Int) → (days : Int) → Int
  /-- The digest `hmac.New(sha256.New, key)` yields after writing `msg`. -/
  hmacSHA256 : (key : List UInt8) → (msg : List UInt8) → List UInt8
  /-- The two results of `base64.StdEncoding.DecodeString`. -/
  DecodeString : String → List UInt8 × Option String
  /-- The function `base64.StdEncoding.EncodeToString`. -/
  EncodeToString : List UInt8 → String
  /-- The `Code` element found by decoding an XML error body, empty when decoding fails. -/
  xmlCode : List UInt8 → String
  /-- The content of the file `os.Open` opens, or the error of opening it; the inner
  result is that of reading the file. -/
  Open : String → Except String (Except String (List UInt8))
  /-- The function `util.GetRandomString`. -/
  GetRandomString : Nat → Except String String
  /-- The value `time.Now().UTC()` read by `FileUpload`, in seconds since the Unix epoch. -/
  nowFileUpload : Int
  /-- The value `time.Now().UTC()` read by `GetBlobSasUrl`, in seconds since the Unix epoch. -/
  nowGetBlobSasUrl : Int
  /-- The function `Time.Format(ms_date_layout)`. -/
  formatMsDate : Int → String
  /-- The function `path.Ext`. -/
  Ext : String → String
  /-- The function `mime.TypeByExtension`. -/
  TypeByExtension : String → String
  /-- The function `strconv.Itoa`. -/
  Itoa : Nat → String
  /-- The URL `http.NewRequest` parses, or its error. -/
  parseURL : String → Except String URL
  /-- The method `RoundTrip` of the transport. -/
  RoundTrip : Request → Except String Response
  /-- The function `azblob.NewSharedKeyCredential`; a credential is kept as (account, key bytes). -/
  NewSharedKeyCredential : String → String → Except String (String × List UInt8)
  /-- The method `NewSASQueryParameters` followed by `Encode`. -/
  NewSASQueryParameters : BlobSASSignatureValues → String × List UInt8 → Except String String

/-! ## Letter case -/

/-- Go's `unicode.ToLower`: an ASCII rune is mapped directly, any other rune through the case
table. -/
def toLowerRune (lib : Lib) (r : Char) : Char :=
  if r.toNat ≤ 127 then
    if 65 ≤ r.toNat ∧ r.toNat ≤ 90 then Char.ofNat (r.toNat + 32) else r
  else lib.lowerCase r

/-- Go's `unicode.ToUpper`: an ASCII rune is mapped directly, any other rune through the case
table. -/
def toUpperRune (lib : Lib) (r : Char) : Char :=
  if r.toNat ≤ 127 then
    if 97 ≤ r.toNat ∧ r.toNat ≤ 122 then Char.ofNat (r.toNat - 32) else r
  else lib.upperCase r

/-- Go's `strings.ToLower`: every rune goes through `unicode.ToLower`. -/
def ToLower (lib : Lib) (s : String) : String := ⟨s.data.map (toLowerRune lib)⟩

/-- Go's `strings.ToUpper`: every rune goes through `unicode.ToUpper`. -/
def ToUpper (lib : Lib) (s : String) : String := ⟨s.data.map (toUpperRune lib)⟩

/-! ## Signing -/

/-- The function `copyHeadersToRequest`, for the entries of `headers` in the order given. -/
def copyHeadersToRequest (req : Request) (headers : List (String × String)) : Request :=
  { req with Header := headers.foldl (fun h kv => h.set kv.1 [kv.2]) req.Header }

/-- The function `tryget`. -/
def tryget (headers : Values) (key : String) : String :=
  match headers.get key with
  | v :: _ => v
  | [] => ""

/-- The loop of `canonicalizedHeaders`: the buffer after visiting the entries. -/
def canonicalizedHeadersLoop (lib : Lib) : Values → String → Except Failure String
  | [], buffer => pure buffer
  | (key, value) :: rest, buffer =>
    let lowerKey := ToLower lib key
    if HasPrefix lowerKey "x-ms-" then
      match value with
      | [] => throw (.panic "index out of range [0] with length 0")
      | v0 :: _ =>
        if buffer.length = 0 then
          canonicalizedHeadersLoop lib rest (buffer ++ (lowerKey ++ ":" ++ v0))
        else
          canonicalizedHeadersLoop lib rest (buffer ++ ("\n" ++ lowerKey ++ ":" ++ v0))
    else canonicalizedHeadersLoop lib rest buffer

/-- The method `Auth.canonicalizedHeaders`. -/
def canonicalizedHeaders (lib : Lib) (_a : Auth) (req : Request) :
    Except Failure String := do
  let buffer ← canonicalizedHeadersLoop lib req.Header ""
  let split := Split buffer '\n'
  pure (Join (sortStrings split) "\n")

/-- The loop of `canonicalizedResource`: the buffer after visiting the query entries. -/
def canonicalizedResourceLoop : Values → String → String
  | [], buffer => buffer
  | (key, values) :: rest, buffer =>
    canonicalizedResourceLoop rest (buffer ++ ("\n" ++ key ++ ":" ++ Join (sortStrings values) ","))

/-- The method `Auth.canonicalizedResource`. -/
def canonicalizedResource (a : Auth) (req : Request) : String :=
  let buffer := canonicalizedResourceLoop req.URL.Query ("/" ++ a.Account ++ req.URL.Path)
  let split := Split buffer '\n'
  Join (sortStrings split) "\n"

/-- The local `strToSign` of `Auth.SignRequest`. -/
def strToSign (lib : Lib) (a : Auth) (req : Request) : Except Failure String := do
  let m := ToUpper lib req.Method
  let h1 := tryget req.Header "Content-Encoding"
  let h2 := tryget req.Header "Content-Language"
  let h3 := tryget req.Header "Content-Length"
  let h4 := tryget req.Header "Content-MD5"
  let h5 := tryget req.Header "Content-Type"
  let h6 := tryget req.Header "Date"
  let h7 := tryget req.Header "If-Modified-Since"
  let h8 := tryget req.Header "If-Match"
  let h9 := tryget req.Header "If-None-Match"
  let h10 := tryget req.Header "If-Unmodified-Since"
  let h11 := tryget req.Header "Range"
  let ch ← canonicalizedHeaders lib a req
  let cr := canonicalizedResource a req
  pure (m ++ "\n" ++ h1 ++ "\n" ++ h2 ++ "\n" ++ h3 ++ "\n" ++ h4 ++ "\n" ++ h5 ++ "\n" ++ h6
    ++ "\n" ++ h7 ++ "\n" ++ h8 ++ "\n" ++ h9 ++ "\n" ++ h10 ++ "\n" ++ h11 ++ "\n" ++ ch
    ++ "\n" ++ cr)

/-- The method `Auth.SignRequest`: the request with its new header when the method returns
nil. The error of decoding the key is dropped, and writing to the hash never fails. -/
def SignRequest (lib : Lib) (a : Auth) (req : Request) : Except Failure Request := do
  let strToSign ← strToSign lib a req
  let decodedKey := (lib.DecodeString a.Key).1
  let signature := lib.EncodeToString (lib.hmacSHA256 decodedKey (bytesOf strToSign))
  pure (copyHeadersToRequest req [("Authorization", "SharedKey " ++ a.Account ++ ":" ++ signature)])

/-! ## Upload -/

/-- A plain `error` returned by library code. -/
def liftErr {α : Type} : Except String α → Except Failure α
  | .ok a => .ok a
  | .error e => .error (.err e)

/-- The table `upperhex` of `net/url`. -/
def upperhex (n : Nat) : Char :=
  ['0', '1', '2', '3', '4', '5', '6', '7', '8', '9', 'A', 'B', 'C', 'D', 'E', 'F'].getD n '0'

/-- The function `shouldEscape` of `net/url` for a query component: every byte but the
ASCII letters and digits and `-`, `_`, `.`, `~`. -/
def shouldEscape (c : Nat) : Bool :=
  !((97 ≤ c && c ≤ 122) || (65 ≤ c && c ≤ 90) || (48 ≤ c && c ≤ 57)
    || c = 45 || c = 95 || c = 46 || c = 126)

/-- What `url.QueryEscape` writes for one byte. -/
def queryEscapeByte (c : Nat) : List Char :=
  if shouldEscape c then
    if c = 32 then ['+'] else ['%', upperhex (c / 16), upperhex (c % 16)]
  else [Char.ofNat c]

/-- Go's `url.QueryEscape`. -/
def QueryEscape (s : String) : String :=
  ⟨(bytesOf s).flatMap (fun b => queryEscapeByte b.toNat)⟩

/-- The function `escape`. -/
def escape (content : String) : String :=
  let content := QueryEscape content
  let content := ReplaceAll content "+" "%20"
  let content := ReplaceAll content "%2F" "/"
  content

/-- The constant `version`. -/
def version : String := "2017-04-17"

/-- The function `NewStorageClient`. -/
def NewStorageClient (account accessKey : String) : StorageClient :=
  { Auth := some { Account := account, Key := accessKey } }

/-- The method `StorageClient.absUrl`, given the formatted part. -/
def absUrl (c : StorageClient) (part : String) : Except Failure String :=
  match c.Auth with
  | none => throw (.panic "invalid memory address or nil pointer dereference")
  | some a => pure ("https://" ++ a.Account ++ ".blob.core.windows.net/" ++ part)

/-- The method `StorageClient.FileUpload`; `body` is the result of reading the body. -/
def FileUpload (lib : Lib) (c : StorageClient) (container blobName : String)
    (body : Except String (List UInt8)) : Except Failure Response := do
  let blobName := escape blobName
  let extension := ToLower lib (lib.Ext blobName)
  let contentType := lib.TypeByExtension extension
  let buf ← liftErr body
  let url ← absUrl c (container ++ "/" ++ blobName)
  let u ← liftErr (lib.parseURL url)
  let req : Request := { Method := "PUT", URL := u, Header := [], Body := buf }
  let req := copyHeadersToRequest req
    [("x-ms-blob-type", "BlockBlob"),
     ("x-ms-date", lib.formatMsDate lib.nowFileUpload),
     ("x-ms-version", version),
     ("Accept-Charset", "UTF-8"),
     ("Content-Type", contentType),
     ("Content-Length", lib.Itoa buf.length)]
  match c.Auth with
  | none => throw (.panic "invalid memory address or nil pointer dereference")
  | some a =>
    let req ← SignRequest lib a req
    liftErr (lib.RoundTrip req)

/-- The method `StorageClient.GetBlobSasUrl`. -/
def GetBlobSasUrl (lib : Lib) (c : StorageClient) (containerName blobName : String)
    (sasTokenExpiration : Int) : Except Failure String :=
  match c.Auth with
  | none => throw (.err "cannot sign SAS query without Shared Key Credential")
  | some a => do
    let credential ← liftErr (lib.NewSharedKeyCredential a.Account a.Key)
    let qp ← liftErr (lib.NewSASQueryParameters
      { Protocol := "https",
        ExpiryTime := lib.AddDate lib.nowGetBlobSasUrl sasTokenExpiration,
        ContainerName := containerName,
        BlobName := blobName,
        Permissions := "r" } credential)
    pure ("https://" ++ a.Account ++ ".blob.core.windows.net/" ++ containerName ++ "/"
      ++ blobName ++ "?" ++ qp)

/-- The method `Error.parseXML`. -/
def Error.parseXML (lib : Lib) (e : Error) : Error :=
  { e with AzureCode := lib.xmlCode e.Body }

/-- The method `AzureBlobUploader.Upload`. -/
def Upload (lib : Lib) (az : AzureBlobUploader) (imageDiskPath : String) :
    Except Failure String := do
  let blob := NewStorageClient az.account_name az.account_key
  let file ← liftErr (lib.Open imageDiskPath)
  let randomFileName ← liftErr (lib.GetRandomString 30)
  let randomFileName := randomFileName ++ lib.pngExt
  let resp ← FileUpload lib blob az.container_name randomFileName file
  if resp.StatusCode > 400 ∧ resp.StatusCode < 600 then
    match resp.BodyErr with
    | some e =>
      if resp.Body.length < 2 ^ 20 then throw (.err e)
      else
        let aerr : Error := { Code := resp.StatusCode, Status := resp.Status,
                              Body := resp.Body.take (2 ^ 20), Header := resp.Header,
                              AzureCode := "" }
        throw (.azure (aerr.parseXML lib))
    | none =>
      let aerr : Error := { Code := resp.StatusCode, Status := resp.Status,
                            Body := resp.Body.take (2 ^ 20), Header := resp.Header,
                            AzureCode := "" }
      throw (.azure (aerr.parseXML lib))
  else
    let url := "https://" ++ az.account_name ++ ".blob.core.windows.net/"
      ++ az.container_name ++ "/" ++ randomFileName
    if az.sas_token_expiration_days > 0 then
      GetBlobSasUrl lib blob az.container_name randomFileName az.sas_token_expiration_days
    else pure url

/-! ## The claims' own words -/

/-- The lower-cased text of the claims: a capital ASCII letter becomes its small letter, any
other ASCII character stays, and a character above ASCII is looked up in the lower-case table
of the library. -/
def lowerCased (lib : Lib) (s : String) : String :=
  ⟨s.data.map fun c =>
    if 65 ≤ c.toNat ∧ c.toNat ≤ 90 then Char.ofNat (c.toNat + 32)
    else if c.toNat < 128 then c
    else lib.lowerCase c⟩

/-- The upper-cased text of the claims: a small ASCII letter becomes its capital, any other
ASCII character stays, and a character above ASCII is looked up in the upper-case table of
the library. -/
def upperCased (lib : Lib) (s : String) : String :=
  ⟨s.data.map fun c =>
    if 97 ≤ c.toNat ∧ c.toNat ≤ 122 then Char.ofNat (c.toNat - 32)
    else if c.toNat < 128 then c
    else lib.upperCase c⟩

/-- The value of a header in the claims: the first value stored under the name, and the empty
string when the name is absent or has no value. -/
def firstValue (h : Values) (name : String) : String := (h.get name).headD ""

/-- The lines the header claim names: `lower(name):firstValue` for every header whose
lower-cased name starts with `x-ms-`, in the order of the entries. -/
def headerLines (lib : Lib) (h : Values) : List String :=
  h.filterMap fun e =>
    if "x-ms-".data.isPrefixOf (lowerCased lib e.1).data then
      some (lowerCased lib e.1 ++ ":" ++ e.2.headD "")
    else none

/-- The lines the resource claim names: `/account` followed by the path, then for every
parameter name `name:` followed by its values, sorted and joined by commas. -/
def resourceLines (a : Auth) (req : Request) : List String :=
  ("/" ++ a.Account ++ req.URL.Path) ::
    req.URL.Query.map (fun e => e.1 ++ ":" ++ Join (sortStrings e.2) ",")

/-- The encoding of one byte the blob-name claim names: letters, digits, `-`, `_`, `.`, `~`
and `/` are kept, a space becomes `%20`, any other byte `%` and its two upper-case hex digits. -/
def escapedByte (c : Nat) : List Char :=
  if (97 ≤ c ∧ c ≤ 122) ∨ (65 ≤ c ∧ c ≤ 90) ∨ (48 ≤ c ∧ c ≤ 57)
      ∨ c = 45 ∨ c = 95 ∨ c = 46 ∨ c = 126 ∨ c = 47 then [Char.ofNat c]
  else if c = 32 then ['%', '2', '0']
  else ['%', upperhex (c / 16), upperhex (c % 16)]

/-- What `escape` holds for one byte after its first replacement, of `+` by `%20`. -/
def plusReplacedByte (c : Nat) : List Char :=
  if c = 32 then ['%', '2', '0'] else queryEscapeByte c

/-- The eleven standard header names of the string to sign, in the order in which
`SignRequest` reads them. -/
def standardHeaders : List String :=
  ["Content-Encoding", "Content-Language", "Content-Length", "Content-MD5", "Content-Type",
   "Date", "If-Modified-Since", "If-Match", "If-None-Match", "If-Unmodified-Since", "Range"]

/-- Whether an entry of a header map is one of the `x-ms-` headers. -/
def isMsHeader (lib : Lib) (e : String × List String) : Bool :=
  HasPrefix (ToLower lib e.1) "x-ms-"

/-- The `Authorization` value a call of `SignRequest` leaves on the request. -/
def authorizationOf (r : Except Failure Request) : Except Failure (List String) :=
  r.map (fun req => req.Header.get "Authorization")

/-! ## A library double

Concrete stand-ins for `Lib`, to run the model on concrete inputs. -/

/-- The value of a character of the standard base64 alphabet. -/
def b64Value (c : Char) : Option Nat :=
  let n := c.toNat
  if 65 ≤ n ∧ n ≤ 90 then some (n - 65)
  else if 97 ≤ n ∧ n ≤ 122 then some (n - 71)
  else if 48 ≤ n ∧ n ≤ 57 then some (n + 4)
  else if n = 43 then some 62
  else if n = 47 then some 63
  else none

/-- Standard base64 decoding with padding, as `base64.StdEncoding.DecodeString` does it on
text from which the line breaks have been removed: the bytes decoded before the first
malformed quantum, those of a padded quantum also when text follows it, and the error if
there is one. -/
def b64DecodeQuanta : List Char → List UInt8 × Option String
  | [] => ([], none)
  | a :: b :: c :: d :: rest =>
    match b64Value a, b64Value b with
    | some x, some y =>
      if c = '=' then
        if d = '=' then
          ([UInt8.ofNat (x * 4 + y / 16)],
            if rest = [] then none else some "illegal base64 data")
        else ([], some "illegal base64 data")
      else
        match b64Value c with
        | some z =>
          if d = '=' then
            ([UInt8.ofNat (x * 4 + y / 16), UInt8.ofNat (y % 16 * 16 + z / 4)],
              if rest = [] then none else some "illegal base64 data")
          else
            match b64Value d with
            | some w =>
              let r := b64DecodeQuanta rest
              (UInt8.ofNat (x * 4 + y / 16) :: UInt8.ofNat (y % 16 * 16 + z / 4)
                :: UInt8.ofNat (z % 4 * 64 + w) :: r.1, r.2)
            | none => ([], some "illegal base64 data")
        | none => ([], some "illegal base64 data")
    | _, _ => ([], some "illegal base64 data")
  | _ => ([], some "illegal base64 data")

/-- Standard base64 decoding with padding; carriage returns and line feeds are skipped. -/
def b64Decode (s : List Char) : List UInt8 × Option String :=
  b64DecodeQuanta (s.filter (fun c => c ≠ '\r' ∧ c ≠ '\n'))

/-- The character of the standard base64 alphabet with the given value. -/
def b64Char (n : Nat) : Char :=
  if n < 26 then Char.ofNat (n + 65)
  else if n < 52 then Char.ofNat (n + 71)
  else if n < 62 then Char.ofNat (n - 4)
  else if n = 62 then '+' else '/'

/-- Standard base64 encoding with padding. -/
def b64Encode : List UInt8 → List Char
  | [] => []
  | [a] => [b64Char (a.toNat / 4), b64Char (a.toNat % 4 * 16), '=', '=']
  | [a, b] =>
    [b64Char (a.toNat / 4), b64Char (a.toNat % 4 * 16 + b.toNat / 16),
     b64Char (b.toNat % 16 * 4), '=']
  | a :: b :: c :: rest =>
    b64Char (a.toNat / 4) :: b64Char (a.toNat % 4 * 16 + b.toNat / 16)
      :: b64Char (b.toNat % 16 * 4 + c.toNat / 64) :: b64Char (c.toNat % 64) :: b64Encode rest

/-- The decimal digits of an integer. -/
def decimal (n : Int) : String :=
  if n < 0 then ⟨'-' :: Nat.toDigits 10 n.natAbs⟩ else ⟨Nat.toDigits 10 n.natAbs⟩

/-- A 64-bit signed integer after overflow: the value modulo `2 ^ 64`, between `-2 ^ 63` and
`2 ^ 63 - 1`. -/
def wrapInt64 (x : Int) : Int := (x + 2 ^ 63) % 2 ^ 64 - 2 ^ 63

/-- A response of the transport with status 201. -/
def created : Response :=
  { StatusCode := 201, Status := "201 Created", Header := [], Body := [], BodyErr := none }

/-- A library double: case tables that leave every character above ASCII as it is, real
base64, a stand-in digest (the key followed by the message), a file system with empty files,
a clock at the Unix epoch, days of 86400 seconds added with 64-bit overflow, a URL parser
that keeps the text after the host as the path, a transport that answers every request with
`resp`, and a SAS signer that accepts every signature value. -/
def fakeLib (resp : Response) : Lib where
  pngExt := ".png"
  lowerCase := fun c => c
  upperCase := fun c => c
  AddDate := fun t days => wrapInt64 (t + 86400 * days)
  hmacSHA256 := fun key msg => key ++ msg
  DecodeString := fun s => b64Decode s.data
  EncodeToString := fun b => ⟨b64Encode b⟩
  xmlCode := fun _ => ""
  Open := fun _ => .ok (.ok [])
  GetRandomString := fun n => .ok ⟨List.replicate n 'a'⟩
  nowFileUpload := 0
  nowGetBlobSasUrl := 0
  formatMsDate := fun _ => "Thu, 01 Jan 1970 00:00:00 GMT"
  Ext := fun s => ⟨'.' :: (s.data.reverse.takeWhile (fun c => c ≠ '.')).reverse⟩
  TypeByExtension := fun e => if e = ".png" then "image/png" else ""
  Itoa := fun n => ⟨Nat.toDigits 10 n⟩
  parseURL := fun s => .ok { Path := ⟨(s.data.drop 8).dropWhile (fun c => c ≠ '/')⟩, Query := [] }
  RoundTrip := fun _ => .ok resp
  NewSharedKeyCredential := fun account key =>
    match b64Decode key.data with
    | (b, none) => .ok (account, b)
    | (_, some e) => .error e
  NewSASQueryParameters := fun v _ =>
    .ok ("se=" ++ decimal v.ExpiryTime ++ "&sp=" ++ v.Permissions ++ "&spr=" ++ v.Protocol
      ++ "&sr=b")

/-! ## The order of `sort.Strings` -/

theorem ltChars_irrefl (a : List Char) : ltChars a a = false := by
  induction a with
  | nil => rfl
  | cons c cs ih => simp [ltChars, ih]

theorem ltChars_asymm : ∀ a b : List Char, ltChars a b = true → ltChars b a = false
  | _, [] => by intro h; simp [ltChars] at h
  | [], _ :: _ => by intro _; simp [ltChars]
  | a :: as, b :: bs => by
    intro h
    simp only [ltChars] at h ⊢
    by_cases hab : a < b
    · simp only [if_neg (lt_asymm hab), if_pos hab]
    · by_cases hba : b < a
      · simp [hab, hba] at h
      · simp only [hab, hba, if_false] at h ⊢
        exact ltChars_asymm as bs h

theorem ltChars_antisymm : ∀ a b : List Char, ltChars a b = false → ltChars b a = false → a = b
  | [], [] => by intros; rfl
  | [], _ :: _ => by intro h; simp [ltChars] at h
  | _ :: _, [] => by intro _ h; simp [ltChars] at h
  | a :: as, b :: bs => by
    intro h1 h2
    simp only [ltChars] at h1 h2
    by_cases hab : a < b
    · simp [hab] at h1
    · by_cases hba : b < a
      · simp [hba] at h2
      · simp only [hab, hba, if_false] at h1 h2
        have hc : a = b := le_antisymm (not_lt.mp hba) (not_lt.mp hab)
        rw [hc, ltChars_antisymm as bs h1 h2]

theorem ltChars_negtrans : ∀ a b c : List Char,
    ltChars b a = false → ltChars c b = false → ltChars c a = false
  | [], _, _ => by intros; cases ‹List Char› <;> rfl
  | _ :: _, [], _ => by intro h; simp [ltChars] at h
  | _ :: _, _ :: _, [] => by intro _ h; simp [ltChars] at h
  | a :: as, b :: bs, c :: cs => by
    intro h1 h2
    simp only [ltChars] at h1 h2 ⊢
    by_cases hba : b < a
    · simp [hba] at h1
    · by_cases hcb : c < b
      · simp [hcb] at h2
      · have hab : a ≤ b := not_lt.mp hba
        have hbc : b ≤ c := not_lt.mp hcb
        have hca : ¬ c < a := not_lt.mpr (le_trans hab hbc)
        simp only [hca, if_false]
        by_cases hac : a < c
        · simp [hac]
        · simp only [hac, if_false]
          have e1 : a = c := le_antisymm (le_trans hab hbc) (not_lt.mp hac)
          have e2 : a = b := le_antisymm hab (by rw [e1]; exact hbc)
          subst e1; subst e2
          simp only [lt_irrefl, if_false] at h1 h2
          exact ltChars_negtrans as bs cs h1 h2

theorem strLE_total (a b : String) : strLE a b ∨ strLE b a := by
  unfold strLE
  cases h : ltChars b.data a.data with
  | false => exact Or.inl rfl
  | true => exact Or.inr (ltChars_asymm _ _ h)

theorem strLE_trans {a b c : String} (h1 : strLE a b) (h2 : strLE b c) : strLE a c :=
  ltChars_negtrans a.data b.data c.data h1 h2

theorem strLE_antisymm {a b : String} (h1 : strLE a b) (h2 : strLE b a) : a = b :=
  String.ext (ltChars_antisymm a.data b.data h2 h1)

theorem sortStrings_sorted (xs : List String) : (sortStrings xs).Sorted strLE :=
  @List.sorted_insertionSort _ strLE _ ⟨strLE_total⟩ ⟨fun _ _ _ => strLE_trans⟩ xs

theorem sortStrings_perm (xs : List String) : (sortStrings xs).Perm xs :=
  List.perm_insertionSort strLE xs

/-- Two slices with the same elements sort to the same slice. -/
theorem sortStrings_eq_of_perm {xs ys : List String} (h : xs.Perm ys) :
    sortStrings xs = sortStrings ys :=
  @List.eq_of_perm_of_sorted _ strLE ⟨fun _ _ => strLE_antisymm⟩ _ _
    (((sortStrings_perm xs).trans h).trans (sortStrings_perm ys).symm)
    (sortStrings_sorted xs) (sortStrings_sorted ys)

/-- A sorted slice is left as it is. -/
theorem sortStrings_of_sorted {xs : List String} (h : xs.Sorted strLE) : sortStrings xs = xs :=
  List.Sorted.insertionSort_eq h

/-! ## Splitting and joining -/

theorem splitChars_ne_nil (sep : Char) (l : List Char) : splitChars sep l ≠ [] := by
  induction l with
  | nil => simp [splitChars]
  | cons c cs ih =>
    simp only [splitChars]
    split
    · simp
    · cases h : splitChars sep cs with
      | nil => simp
      | cons x xs => simp

theorem splitChars_cons_of_ne {sep c : Char} (h : c ≠ sep) (cs : List Char) :
    ∃ x xs, splitChars sep cs = x :: xs ∧ splitChars sep (c :: cs) = (c :: x) :: xs := by
  cases hs : splitChars sep cs with
  | nil => exact absurd hs (splitChars_ne_nil sep cs)
  | cons x xs => exact ⟨x, xs, rfl, by simp [splitChars, h, hs]⟩

theorem splitChars_no_sep (sep : Char) (l : List Char) : ∀ x ∈ splitChars sep l, sep ∉ x := by
  induction l with
  | nil => simp [splitChars]
  | cons c cs ih =>
    by_cases h : c = sep
    · intro x hx
      simp only [splitChars, h, if_true, List.mem_cons] at hx
      rcases hx with rfl | hx
      · simp
      · exact ih x hx
    · obtain ⟨y, ys, h1, h2⟩ := splitChars_cons_of_ne h cs
      intro x hx
      rw [h2, List.mem_cons] at hx
      rw [h1] at ih
      rcases hx with rfl | hx
      · intro hm
        rcases List.mem_cons.mp hm with e | e
        · exact h e.symm
        · exact ih y (List.mem_cons_self _ _) e
      · exact ih x (List.mem_cons_of_mem _ hx)

theorem splitChars_of_not_mem {sep : Char} {l : List Char} (h : sep ∉ l) :
    splitChars sep l = [l] := by
  induction l with
  | nil => rfl
  | cons c cs ih =>
    have hc : c ≠ sep := fun e => h (by simp [e])
    have hcs : sep ∉ cs := fun e => h (List.mem_cons_of_mem _ e)
    simp [splitChars, hc, ih hcs]

theorem splitChars_append_sep (sep : Char) (a b : List Char) :
    splitChars sep (a ++ sep :: b) = splitChars sep a ++ splitChars sep b := by
  induction a with
  | nil => simp [splitChars]
  | cons c cs ih =>
    by_cases h : c = sep
    · simp [splitChars, h, ih]
    · obtain ⟨x, xs, h1, h2⟩ := splitChars_cons_of_ne h cs
      rw [h2]
      have e : splitChars sep (c :: (cs ++ sep :: b)) =
          (c :: x) :: (xs ++ splitChars sep b) := by
        simp only [splitChars, h, if_false]
        rw [ih, h1]
        rfl
      exact e

theorem Join_cons_cons (x y : String) (rest : List String) (sep : String) :
    Join (x :: y :: rest) sep = x ++ sep ++ Join (y :: rest) sep := rfl

theorem Split_no_newline (s : String) : ∀ x ∈ Split s '\n', '\n' ∉ x.data := by
  intro x hx
  simp only [Split, List.mem_map] at hx
  obtain ⟨l, hl, rfl⟩ := hx
  exact splitChars_no_sep _ _ l hl

/-- Splitting a joined slice gives the pieces of its elements. -/
theorem Split_Join (xs : List String) (h : xs ≠ []) :
    Split (Join xs "\n") '\n' = xs.flatMap (fun x => Split x '\n') := by
  induction xs with
  | nil => exact absurd rfl h
  | cons x rest ih =>
    cases rest with
    | nil => simp [Join]
    | cons y rest =>
      have ih2 := ih (by simp)
      rw [Join_cons_cons]
      simp only [Split, String.data_append, List.append_assoc] at ih2 ⊢
      rw [List.singleton_append, splitChars_append_sep, List.map_append, ih2]
      simp [List.flatMap_cons]

/-- A slice of lines without newline is what splitting its join gives back. -/
theorem Split_Join_lines (xs : List String) (h : xs ≠ [])
    (hnl : ∀ x ∈ xs, '\n' ∉ x.data) : Split (Join xs "\n") '\n' = xs := by
  rw [Split_Join xs h]
  induction xs with
  | nil => rfl
  | cons x rest ih =>
    have hx : Split x '\n' = [x] := by
      simp [Split, splitChars_of_not_mem (hnl x (List.mem_cons_self _ _))]
    rw [List.flatMap_cons, hx]
    cases rest with
    | nil => simp
    | cons y rest =>
      rw [ih (by simp) (fun z hz => hnl z (List.mem_cons_of_mem _ hz))]
      rfl

/-! ## The words of the claims and the library functions -/

/-- The lower-cased text of the claims is what `strings.ToLower` yields. -/
theorem lowerCased_eq (lib : Lib) (s : String) : lowerCased lib s = ToLower lib s := by
  unfold lowerCased ToLower
  congr 1
  apply List.map_congr_left
  intro c _
  unfold toLowerRune
  split_ifs <;> first | rfl | omega

/-- The upper-cased text of the claims is what `strings.ToUpper` yields. -/
theorem upperCased_eq (lib : Lib) (s : String) : upperCased lib s = ToUpper lib s := by
  unfold upperCased ToUpper
  congr 1
  apply List.map_congr_left
  intro c _
  unfold toUpperRune
  split_ifs <;> first | rfl | omega

/-- The header value of the claims is what `tryget` yields. -/
theorem firstValue_eq (h : Values) (name : String) : firstValue h name = tryget h name := by
  unfold firstValue tryget
  cases h.get name <;> rfl

/-! ## The string to sign -/

theorem canonicalizedResourceLoop_data (q : Values) (b : String) :
    ∃ t, (canonicalizedResourceLoop q b).data = b.data ++ t := by
  induction q generalizing b with
  | nil => exact ⟨[], by simp [canonicalizedResourceLoop]⟩
  | cons e rest ih =>
    obtain ⟨key, values⟩ := e
    obtain ⟨t, ht⟩ := ih (b ++ ("\n" ++ key ++ ":" ++ Join (sortStrings values) ","))
    refine ⟨("\n" ++ key ++ ":" ++ Join (sortStrings values) ",").data ++ t, ?_⟩
    simp only [canonicalizedResourceLoop, ht, String.data_append, List.append_assoc]

theorem strLE_ne_empty {x y : String} (h : strLE x y) (hx : x.data ≠ []) : y.data ≠ [] := by
  intro hy
  unfold strLE at h
  rw [hy] at h
  cases hd : x.data with
  | nil => exact hx hd
  | cons c cs => rw [hd] at h; simp [ltChars] at h

/-- The join of a sorted slice of newline-free strings, one of them non-empty, ends with a
character that is no newline. -/
theorem Join_sorted_last (xs : List String) (hs : xs.Pairwise strLE)
    (he : ∃ e ∈ xs, e.data ≠ []) (hnl : ∀ x ∈ xs, '\n' ∉ x.data) :
    ∃ init c, (Join xs "\n").data = init ++ [c] ∧ c ≠ '\n' := by
  induction xs with
  | nil => obtain ⟨e, he, _⟩ := he; simp at he
  | cons x rest ih =>
    cases rest with
    | nil =>
      obtain ⟨e, hmem, hne⟩ := he
      have hex : e = x := by simpa using hmem
      subst hex
      obtain ⟨c, hc⟩ := Option.isSome_iff_exists.mp (List.getLast?_isSome.mpr hne)
      obtain ⟨init, hinit⟩ := List.getLast?_eq_some_iff.mp hc
      refine ⟨init, c, by simpa [Join] using hinit, ?_⟩
      intro hcn
      apply hnl e (List.mem_cons_self _ _)
      rw [hinit, hcn]
      simp
    | cons y rest =>
      have hp := List.pairwise_cons.mp hs
      have he2 : ∃ e ∈ y :: rest, e.data ≠ [] := by
        obtain ⟨e, hmem, hne⟩ := he
        rcases List.mem_cons.mp hmem with rfl | hmem
        · exact ⟨y, List.mem_cons_self _ _, strLE_ne_empty (hp.1 y (List.mem_cons_self _ _)) hne⟩
        · exact ⟨e, hmem, hne⟩
      obtain ⟨init, c, hj, hc⟩ := ih hp.2 he2 (fun z hz => hnl z (List.mem_cons_of_mem _ hz))
      refine ⟨x.data ++ ("\n" : String).data ++ init, c, ?_, hc⟩
      rw [Join_cons_cons]
      simp only [String.data_append, hj, List.append_assoc]

/-- The canonicalized resource ends with a character that is no newline. -/
theorem canonicalizedResource_last (a : Auth) (req : Request) :
    ∃ init c, (canonicalizedResource a req).data = init ++ [c] ∧ c ≠ '\n' := by
  unfold canonicalizedResource
  obtain ⟨t, ht⟩ := canonicalizedResourceLoop_data req.URL.Query ("/" ++ a.Account ++ req.URL.Path)
  have hd : (canonicalizedResourceLoop req.URL.Query ("/" ++ a.Account ++ req.URL.Path)).data
      = '/' :: (a.Account.data ++ req.URL.Path.data ++ t) := by
    rw [ht]
    simp only [String.data_append, List.append_assoc]
    rfl
  obtain ⟨x, xs, _, h2⟩ := splitChars_cons_of_ne (show '/' ≠ '\n' by decide)
    (a.Account.data ++ req.URL.Path.data ++ t)
  apply Join_sorted_last
  · exact sortStrings_sorted _
  · refine ⟨String.mk ('/' :: x), ?_, by simp⟩
    apply (sortStrings_perm _).mem_iff.mpr
    simp only [Split, hd, h2]
    simp
  · intro z hz
    exact Split_no_newline _ z ((sortStrings_perm _).mem_iff.mp hz)

/-- C1: the string `SignRequest` signs is the fourteen fields (the upper-cased method, the
eleven standard headers with the empty string for an absent one, the canonicalized headers
and the canonicalized resource) in this order joined by a single newline, and it never ends
with a newline; it exists exactly when `canonicalizedHeaders` yields a string. So for the
method `put` and the header `Content-Type: image/png` the string starts with `PUT` and
carries `image/png` on its sixth line, whatever the case tables above ASCII are. -/
theorem strToSign_layout (lib : Lib) (a : Auth) (req : Request) :
    strToSign lib a req = (canonicalizedHeaders lib a req).map (fun ch =>
      Join [upperCased lib req.Method,
            firstValue req.Header "Content-Encoding",
            firstValue req.Header "Content-Language",
            firstValue req.Header "Content-Length",
            firstValue req.Header "Content-MD5",
            firstValue req.Header "Content-Type",
            firstValue req.Header "Date",
            firstValue req.Header "If-Modified-Since",
            firstValue req.Header "If-Match",
            firstValue req.Header "If-None-Match",
            firstValue req.Header "If-Unmodified-Since",
            firstValue req.Header "Range",
            ch,
            canonicalizedResource a req] "\n")
    ∧ (∀ s, strToSign lib a req = .ok s → ∀ t : String, s ≠ t ++ "\n")
    ∧ strToSign lib { Account := "acct", Key := "a2V5" }
        { Method := "put", URL := { Path := "/c/b.png", Query := [("b", ["2", "1"])] },
          Header := [("Content-Type", ["image/png"]), ("X-Ms-Date", ["d"]),
            ("Range", [])], Body := [] }
      = .ok "PUT\n\n\n\n\nimage/png\n\n\n\n\n\n\nx-ms-date:d\n/acct/c/b.png\nb:1,2" := by
  refine ⟨?_, ?_, ?_⟩
  rotate_left 2
  · have h1 : ToUpper lib "put" = "PUT" := rfl
    have h2 : canonicalizedHeaders lib { Account := "acct", Key := "a2V5" }
        { Method := "put", URL := { Path := "/c/b.png", Query := [("b", ["2", "1"])] },
          Header := [("Content-Type", ["image/png"]), ("X-Ms-Date", ["d"]),
            ("Range", [])], Body := [] } = .ok "x-ms-date:d" := rfl
    unfold strToSign
    rw [h2]
    simp only [bind, Except.bind, pure, Except.pure, h1]
    rfl
  · unfold strToSign
    cases canonicalizedHeaders lib a req with
    | error e => rfl
    | ok ch =>
      simp only [Join, Except.map, bind, Except.bind, pure, Except.pure, String.append_assoc,
        upperCased_eq, firstValue_eq]
  · intro s hs t ht
    unfold strToSign at hs
    cases hch : canonicalizedHeaders lib a req with
    | error e => simp [hch, bind, Except.bind] at hs
    | ok ch =>
      simp only [hch, bind, Except.bind, pure, Except.pure, Except.ok.injEq] at hs
      obtain ⟨init, c, hj, hc⟩ := canonicalizedResource_last a req
      have hd := congrArg String.data hs
      rw [ht] at hd
      simp only [String.data_append, hj] at hd
      have hl := congrArg List.getLast? hd
      rw [← List.append_assoc, List.getLast?_concat, List.getLast?_concat] at hl
      exact hc (Option.some.inj hl)

/-! ## Signing -/

/-- Reading a key that was just assigned gives the assigned value. -/
theorem Values.get_set (h : Values) (key : String) (value : List String) :
    (h.set key value).get key = value := by
  unfold Values.get Values.set
  by_cases hany : h.any (fun e => e.1 == key) = true
  · rw [if_pos hany]
    have hf : List.find? (fun e => e.1 == key)
        (h.map (fun e => if (e.1 == key) = true then (key, value) else e)) = some (key, value) := by
      induction h with
      | nil => simp at hany
      | cons e rest ih =>
        by_cases he : (e.1 == key) = true
        · simp [List.find?, he]
        · have hrest : rest.any (fun e => e.1 == key) = true := by
            simpa [List.any_cons, he] using hany
          simp only [List.map_cons, he, if_false, List.find?]
          simpa [he] using ih hrest
    rw [hf]
  · rw [if_neg hany]
    have hf : List.find? (fun e => e.1 == key) (h ++ [(key, value)]) = some (key, value) := by
      induction h with
      | nil => simp [List.find?]
      | cons e rest ih =>
        have he : ¬ (e.1 == key) = true := by
          intro he; exact hany (by simp [List.any_cons, he])
        have hrest : ¬ rest.any (fun e => e.1 == key) = true := by
          intro hr; exact hany (by simp [List.any_cons, hr])
        simp only [List.cons_append, List.find?]
        simpa [he] using ih hrest
    rw [hf]

/-- C2: once `SignRequest` returns nil the request has exactly one `Authorization` value,
`SharedKey account:signature`, where the signature is the base64 text of the HMAC-SHA256 of
the string to sign under the bytes that decoding the key yields (the decoded key, for a key
that is valid base64); and `SignRequest` returns nil whenever the string to sign exists.
HMAC-SHA256 and base64 are arbitrary functions. -/
theorem SignRequest_authorization (lib : Lib) (a : Auth) (req : Request) :
    (∀ req', SignRequest lib a req = .ok req' →
      ∃ s, strToSign lib a req = .ok s ∧
        req'.Header.get "Authorization" =
          ["SharedKey " ++ a.Account ++ ":" ++
            lib.EncodeToString (lib.hmacSHA256 (lib.DecodeString a.Key).1 (bytesOf s))])
    ∧ (∀ s, strToSign lib a req = .ok s → ∃ req', SignRequest lib a req = .ok req') := by
  constructor
  · intro req' h
    unfold SignRequest at h
    cases hs : strToSign lib a req with
    | error e => simp [hs, bind, Except.bind] at h
    | ok s =>
      simp only [hs, bind, Except.bind, pure, Except.pure, Except.ok.injEq] at h
      refine ⟨s, rfl, ?_⟩
      rw [← h]
      simp only [copyHeadersToRequest, List.foldl]
      exact Values.get_set _ _ _
  · intro s hs
    unfold SignRequest
    simp [hs, bind, Except.bind, pure, Except.pure]

/-- The method `SignRequest` never returns an error: it returns nil or panics. -/
theorem SignRequest_no_error (lib : Lib) (a : Auth) (req : Request) (msg : String) :
    SignRequest lib a req ≠ .error (.err msg) := by
  unfold SignRequest strToSign canonicalizedHeaders
  cases hl : canonicalizedHeadersLoop lib req.Header "" with
  | ok b => simp [bind, Except.bind, pure, Except.pure]
  | error e =>
    have hp : ∀ (h : Values) (b : String) (m : String),
        canonicalizedHeadersLoop lib h b ≠ .error (.err m) := by
      intro h
      induction h with
      | nil => intro b m; simp [canonicalizedHeadersLoop, pure, Except.pure]
      | cons x rest ih =>
        intro b m
        obtain ⟨key, value⟩ := x
        simp only [canonicalizedHeadersLoop]
        split
        · cases value with
          | nil => simp [throw, throwThe, MonadExceptOf.throw]
          | cons v vs =>
            simp only []
            split
            · exact ih _ m
            · exact ih _ m
        · exact ih _ m
    intro h
    simp only [bind, Except.bind] at h
    injection h with h
    subst h
    exact hp _ _ _ hl

/-- C3: with the key `!`, which is not valid base64, `SignRequest` returns nil and sets an
`Authorization` header, signed with the empty key that the failed decoding leaves. -/
theorem SignRequest_malformed_key :
    ((fakeLib { StatusCode := 201, Status := "201 Created", Header := [], Body := [],
                BodyErr := none }).DecodeString "!").2 = some "illegal base64 data" ∧
    SignRequest
      (fakeLib { StatusCode := 201, Status := "201 Created", Header := [], Body := [],
                 BodyErr := none })
      { Account := "acct", Key := "!" }
      { Method := "PUT", URL := { Path := "/c/b.png", Query := [] }, Header := [], Body := [] }
    = .ok { Method := "PUT", URL := { Path := "/c/b.png", Query := [] },
            Header := [("Authorization",
              ["SharedKey acct:UFVUCgoKCgoKCgoKCgoKCi9hY2N0L2MvYi5wbmc="])],
            Body := [] } :=
  ⟨rfl, rfl⟩

/-- C6: for the query `Comp=list` the line of `canonicalizedResource` is `Comp:list`: the
parameter name is written as it is, not lower-cased. -/
theorem canonicalizedResource_keeps_case :
    canonicalizedResource { Account := "acct", Key := "a2V5" }
      { Method := "GET", URL := { Path := "/c", Query := [("Comp", ["list"])] },
        Header := [], Body := [] }
    = "/acct/c\nComp:list" := by
  decide

/-! ## Canonicalized headers -/

theorem Join_push (b l : String) (ls : List String) :
    Join ((b ++ ("\n" ++ l)) :: ls) "\n" = Join (b :: l :: ls) "\n" := by
  cases ls with
  | nil => simp [Join, String.append_assoc]
  | cons y rest => simp [Join, String.append_assoc]

theorem headerLines_cons_match {lib : Lib} (key : String) (v0 : String) (vs : List String) (rest : Values)
    (h : HasPrefix (ToLower lib key) "x-ms-" = true) :
    headerLines lib ((key, v0 :: vs) :: rest)
      = (ToLower lib key ++ ":" ++ v0) :: headerLines lib rest := by
  have h2 : "x-ms-".data.isPrefixOf (ToLower lib key).data = true := h
  unfold headerLines
  apply List.filterMap_cons_some
  simp only [lowerCased_eq, h2, if_true, List.headD_cons]

theorem headerLines_cons_skip {lib : Lib} (e : String × List String) (rest : Values)
    (h : ¬ HasPrefix (ToLower lib e.1) "x-ms-" = true) :
    headerLines lib (e :: rest) = headerLines lib rest := by
  have h2 : ¬ "x-ms-".data.isPrefixOf (ToLower lib e.1).data = true := h
  unfold headerLines
  apply List.filterMap_cons_none
  simp only [lowerCased_eq, h2, Bool.false_eq_true, if_false]

/-- The loop started with a non-empty buffer appends every line after a newline. -/
theorem canonicalizedHeadersLoop_nonempty {lib : Lib} (h : Values) :
    ∀ b : String, b.length ≠ 0 →
      (∀ e ∈ h, HasPrefix (ToLower lib e.1) "x-ms-" = true → e.2 ≠ []) →
      canonicalizedHeadersLoop lib h b = .ok (Join (b :: headerLines lib h) "\n") := by
  induction h with
  | nil => intro b _ _; simp [canonicalizedHeadersLoop, headerLines, Join, pure, Except.pure]
  | cons e rest ih =>
    intro b hb hv
    obtain ⟨key, value⟩ := e
    have hrest : ∀ e ∈ rest, HasPrefix (ToLower lib e.1) "x-ms-" = true → e.2 ≠ [] :=
      fun e he => hv e (List.mem_cons_of_mem _ he)
    by_cases hm : HasPrefix (ToLower lib key) "x-ms-" = true
    · cases value with
      | nil => exact absurd rfl (hv (key, []) (List.mem_cons_self _ _) hm)
      | cons v0 vs =>
        simp only [canonicalizedHeadersLoop, hm, if_true, if_neg hb]
        rw [ih _ (by rw [String.length_append]; omega) hrest,
          headerLines_cons_match _ _ _ _ hm]
        simp only [String.append_assoc]
        rw [Join_push]
    · simp only [canonicalizedHeadersLoop, hm]
      rw [headerLines_cons_skip _ _ hm]
      exact ih b hb hrest

/-- The loop started with the empty buffer yields the lines joined by newlines. -/
theorem canonicalizedHeadersLoop_empty {lib : Lib} (h : Values)
    (hv : ∀ e ∈ h, HasPrefix (ToLower lib e.1) "x-ms-" = true → e.2 ≠ []) :
    canonicalizedHeadersLoop lib h "" = .ok (Join (headerLines lib h) "\n") := by
  induction h with
  | nil => simp [canonicalizedHeadersLoop, headerLines, Join, pure, Except.pure]
  | cons e rest ih =>
    obtain ⟨key, value⟩ := e
    have hrest : ∀ e ∈ rest, HasPrefix (ToLower lib e.1) "x-ms-" = true → e.2 ≠ [] :=
      fun e he => hv e (List.mem_cons_of_mem _ he)
    by_cases hm : HasPrefix (ToLower lib key) "x-ms-" = true
    · cases value with
      | nil => exact absurd rfl (hv (key, []) (List.mem_cons_self _ _) hm)
      | cons v0 vs =>
        have h0 : ("" : String).length = 0 := rfl
        simp only [canonicalizedHeadersLoop, hm, if_true, if_pos h0, String.empty_append]
        have h1 : (":" : String).length = 1 := rfl
        rw [canonicalizedHeadersLoop_nonempty rest _
            (by rw [String.length_append, String.length_append]; omega) hrest,
          headerLines_cons_match _ _ _ _ hm]
    · simp only [canonicalizedHeadersLoop, hm]
      rw [headerLines_cons_skip _ _ hm]
      exact ih hrest

/-- The loop panics when a header with the prefix has no value. -/
theorem canonicalizedHeadersLoop_panic {lib : Lib} (h : Values)
    (hv : ∃ e ∈ h, HasPrefix (ToLower lib e.1) "x-ms-" = true ∧ e.2 = []) :
    ∀ b : String,
      canonicalizedHeadersLoop lib h b = .error (.panic "index out of range [0] with length 0") := by
  induction h with
  | nil => obtain ⟨e, he, _⟩ := hv; simp at he
  | cons x rest ih =>
    intro b
    obtain ⟨key, value⟩ := x
    by_cases hm : HasPrefix (ToLower lib key) "x-ms-" = true
    · cases value with
      | nil => simp [canonicalizedHeadersLoop, hm, throw, throwThe, MonadExceptOf.throw]
      | cons v0 vs =>
        have hrest : ∃ e ∈ rest, HasPrefix (ToLower lib e.1) "x-ms-" = true ∧ e.2 = [] := by
          obtain ⟨e, he, h1, h2⟩ := hv
          rcases List.mem_cons.mp he with rfl | he
          · simp at h2
          · exact ⟨e, he, h1, h2⟩
        simp only [canonicalizedHeadersLoop, hm, if_true]
        split
        · exact ih hrest _
        · exact ih hrest _
    · have hrest : ∃ e ∈ rest, HasPrefix (ToLower lib e.1) "x-ms-" = true ∧ e.2 = [] := by
        obtain ⟨e, he, h1, h2⟩ := hv
        rcases List.mem_cons.mp he with rfl | he
        · exact absurd h1 hm
        · exact ⟨e, he, h1, h2⟩
      simp only [canonicalizedHeaders, canonicalizedHeadersLoop, hm]
      exact ih hrest b

/-- The result of `canonicalizedHeaders` when every header with the prefix has a value. -/
theorem canonicalizedHeaders_ok {lib : Lib} (a : Auth) (req : Request)
    (hv : ∀ e ∈ req.Header, HasPrefix (ToLower lib e.1) "x-ms-" = true → e.2 ≠ []) :
    canonicalizedHeaders lib a req =
      .ok (Join (sortStrings (Split (Join (headerLines lib req.Header) "\n") '\n')) "\n") := by
  simp [canonicalizedHeaders, canonicalizedHeadersLoop_empty _ hv, bind, Except.bind, pure,
    Except.pure]

/-- C5: two requests whose header maps hold the same entries, visited in different orders,
have the same outcome of `canonicalizedHeaders`: the same string, or the same panic when a
header with the prefix has no value. -/
theorem canonicalizedHeaders_perm (lib : Lib) (a : Auth) (r1 r2 : Request)
    (h : r1.Header.Perm r2.Header) :
    canonicalizedHeaders lib a r1 = canonicalizedHeaders lib a r2 := by
  by_cases hp : ∃ e ∈ r1.Header, HasPrefix (ToLower lib e.1) "x-ms-" = true ∧ e.2 = []
  · have hp2 : ∃ e ∈ r2.Header, HasPrefix (ToLower lib e.1) "x-ms-" = true ∧ e.2 = [] := by
      obtain ⟨e, he, h1⟩ := hp
      exact ⟨e, h.mem_iff.mp he, h1⟩
    simp [canonicalizedHeaders, canonicalizedHeadersLoop_panic _ hp,
      canonicalizedHeadersLoop_panic _ hp2, bind, Except.bind]
  · have hv1 : ∀ e ∈ r1.Header, HasPrefix (ToLower lib e.1) "x-ms-" = true → e.2 ≠ [] :=
      fun e he hm hn => hp ⟨e, he, hm, hn⟩
    have hv2 : ∀ e ∈ r2.Header, HasPrefix (ToLower lib e.1) "x-ms-" = true → e.2 ≠ [] :=
      fun e he hm hn => hp ⟨e, h.mem_iff.mpr he, hm, hn⟩
    rw [canonicalizedHeaders_ok a r1 hv1, canonicalizedHeaders_ok a r2 hv2]
    have hl : (headerLines lib r1.Header).Perm (headerLines lib r2.Header) := h.filterMap _
    by_cases hnil : headerLines lib r1.Header = []
    · have hnil2 : headerLines lib r2.Header = [] := by
        rw [hnil] at hl
        exact hl.symm.eq_nil
      rw [hnil, hnil2]
    · have hnil2 : headerLines lib r2.Header ≠ [] := by
        intro h2
        rw [h2] at hl
        exact hnil hl.eq_nil
      rw [Split_Join _ hnil, Split_Join _ hnil2, sortStrings_eq_of_perm (hl.flatMap_right _)]

/-- The claim C5 at the headers of an upload, visited in two orders. -/
theorem canonicalizedHeaders_perm_witness :
    canonicalizedHeaders (fakeLib created) { Account := "acct", Key := "a2V5" }
      { Method := "PUT", URL := { Path := "/c/b.png", Query := [] },
        Header := [("x-ms-version", ["2017-04-17"]), ("x-ms-blob-type", ["BlockBlob"])],
        Body := [] }
    = canonicalizedHeaders (fakeLib created) { Account := "acct", Key := "a2V5" }
      { Method := "PUT", URL := { Path := "/c/b.png", Query := [] },
        Header := [("x-ms-blob-type", ["BlockBlob"]), ("x-ms-version", ["2017-04-17"])],
        Body := [] } :=
  canonicalizedHeaders_perm _ _ _ _ (List.Perm.swap _ _ _)

/-- Lower-casing brings no newline into a text when the lower-case table yields none. -/
theorem lowerCased_no_newline (lib : Lib) (htable : ∀ c, lib.lowerCase c ≠ '\n') {s : String}
    (h : '\n' ∉ s.data) : '\n' ∉ (lowerCased lib s).data := by
  intro hm
  simp only [lowerCased, List.mem_map] at hm
  obtain ⟨c, hc, he⟩ := hm
  split_ifs at he with h1 h2
  · obtain ⟨h3, h4⟩ := h1
    generalize c.toNat = n at he h3 h4
    interval_cases n <;> exact absurd he (by decide)
  · rw [he] at hc
    exact h hc
  · exact htable c he

theorem headerLines_no_newline {lib : Lib} (h : Values)
    (hv : ∀ e ∈ h, e.2 ≠ [])
    (hnl : ∀ e ∈ h, '\n' ∉ (lowerCased lib e.1).data ∧ ∀ v ∈ e.2, '\n' ∉ v.data) :
    ∀ x ∈ headerLines lib h, '\n' ∉ x.data := by
  intro x hx
  simp only [headerLines, List.mem_filterMap] at hx
  obtain ⟨e, he, hx⟩ := hx
  split at hx
  · injection hx with hx
    subst hx
    have hd : e.2.headD "" ∈ e.2 := by
      cases h2 : e.2 with
      | nil => exact absurd h2 (hv e he)
      | cons v vs => simp
    simp only [String.data_append, List.mem_append, not_or]
    exact ⟨⟨(hnl e he).1, by decide⟩, (hnl e he).2 _ hd⟩
  · simp at hx

/-- C4, as stated, fails: for a header name that holds a newline the result is not the
sorted lines, although every header has a value and no value holds a newline. -/
theorem canonicalizedHeaders_newline_name_counterexample :
    (∀ e ∈ [("x-ms-b\na", ["v"])], e.2 ≠ []) ∧
    (∀ e ∈ [("x-ms-b\na", ["v"])], ∀ v ∈ e.2, '\n' ∉ v.data) ∧
    canonicalizedHeaders (fakeLib created) { Account := "acct", Key := "a2V5" }
      { Method := "PUT", URL := { Path := "/c/b.png", Query := [] },
        Header := [("x-ms-b\na", ["v"])], Body := [] } = .ok "a:v\nx-ms-b" ∧
    Join (sortStrings (headerLines (fakeLib created) [("x-ms-b\na", ["v"])])) "\n"
      = "x-ms-b\na:v" :=
  ⟨by decide, by decide, rfl, by decide⟩

/-- C4, amended: when every header has a value and neither a lower-cased header name nor a
value holds a newline, `canonicalizedHeaders` returns the lines `lower(name):firstValue`,
one for every header whose lower-cased name starts with `x-ms-` and for no other, sorted
ascending as whole lines and joined by single newlines; these are the lines of the result,
and the result is empty when no header has the prefix. Lower-casing turns the capital ASCII
letters into small ones, keeps the rest of ASCII and sends any other character through the
lower-case table of the library. -/
theorem canonicalizedHeaders_lines (lib : Lib) (a : Auth) (req : Request)
    (hv : ∀ e ∈ req.Header, e.2 ≠ [])
    (hnl : ∀ e ∈ req.Header,
      '\n' ∉ (lowerCased lib e.1).data ∧ ∀ v ∈ e.2, '\n' ∉ v.data) :
    ∃ L : List String, L.Perm (headerLines lib req.Header) ∧ L.Sorted strLE ∧
      canonicalizedHeaders lib a req = .ok (Join L "\n") ∧
      (L ≠ [] → Split (Join L "\n") '\n' = L) ∧
      (headerLines lib req.Header = [] → canonicalizedHeaders lib a req = .ok "") := by
  have hok : canonicalizedHeaders lib a req = _ :=
    canonicalizedHeaders_ok a req (fun e he _ => hv e he)
  have hno := headerLines_no_newline req.Header hv hnl
  refine ⟨sortStrings (headerLines lib req.Header), sortStrings_perm _, sortStrings_sorted _,
    ?_, ?_, ?_⟩
  · by_cases hnil : headerLines lib req.Header = []
    · rw [hok, hnil]; rfl
    · rw [hok, Split_Join_lines _ hnil hno]
  · intro hne
    exact Split_Join_lines _ hne (fun x hx => hno x ((sortStrings_perm _).mem_iff.mp hx))
  · intro hnil
    rw [hok, hnil]; rfl

/-- The amended C4 at headers as `FileUpload` sets them, one of them with capitals: the
lines are `x-ms-blob-type:BlockBlob` and `x-ms-version:2017-04-17`. -/
theorem canonicalizedHeaders_lines_witness :
    headerLines (fakeLib created) [("x-ms-version", ["2017-04-17"]),
        ("Content-Type", ["image/png"]), ("X-Ms-Blob-Type", ["BlockBlob"])]
      = ["x-ms-version:2017-04-17", "x-ms-blob-type:BlockBlob"] ∧
    canonicalizedHeaders (fakeLib created) { Account := "acct", Key := "a2V5" }
        { Method := "PUT", URL := { Path := "/c/b.png", Query := [] },
          Header := [("x-ms-version", ["2017-04-17"]), ("Content-Type", ["image/png"]),
            ("X-Ms-Blob-Type", ["BlockBlob"])], Body := [] }
      = .ok "x-ms-blob-type:BlockBlob\nx-ms-version:2017-04-17" ∧
    ∃ L : List String,
      L.Perm (headerLines (fakeLib created) [("x-ms-version", ["2017-04-17"]),
        ("Content-Type", ["image/png"]), ("X-Ms-Blob-Type", ["BlockBlob"])]) ∧
      L.Sorted strLE ∧
      canonicalizedHeaders (fakeLib created) { Account := "acct", Key := "a2V5" }
        { Method := "PUT", URL := { Path := "/c/b.png", Query := [] },
          Header := [("x-ms-version", ["2017-04-17"]), ("Content-Type", ["image/png"]),
            ("X-Ms-Blob-Type", ["BlockBlob"])], Body := [] } = .ok (Join L "\n") ∧
      (L ≠ [] → Split (Join L "\n") '\n' = L) ∧
      (headerLines (fakeLib created) [("x-ms-version", ["2017-04-17"]),
        ("Content-Type", ["image/png"]), ("X-Ms-Blob-Type", ["BlockBlob"])] = [] →
        canonicalizedHeaders (fakeLib created) { Account := "acct", Key := "a2V5" }
          { Method := "PUT", URL := { Path := "/c/b.png", Query := [] },
            Header := [("x-ms-version", ["2017-04-17"]), ("Content-Type", ["image/png"]),
              ("X-Ms-Blob-Type", ["BlockBlob"])], Body := [] } = .ok "") :=
  ⟨by decide, rfl,
    canonicalizedHeaders_lines (fakeLib created) { Account := "acct", Key := "a2V5" }
      { Method := "PUT", URL := { Path := "/c/b.png", Query := [] },
        Header := [("x-ms-version", ["2017-04-17"]), ("Content-Type", ["image/png"]),
          ("X-Ms-Blob-Type", ["BlockBlob"])], Body := [] } (by decide) (by decide)⟩

/-! ## Canonicalized resource -/

/-- The loop appends one line for every entry of the query. -/
theorem canonicalizedResourceLoop_eq (q : Values) :
    ∀ b : String, canonicalizedResourceLoop q b =
      Join (b :: q.map (fun e => e.1 ++ ":" ++ Join (sortStrings e.2) ",")) "\n" := by
  induction q with
  | nil => intro b; simp [canonicalizedResourceLoop, Join]
  | cons e rest ih =>
    intro b
    obtain ⟨key, values⟩ := e
    simp only [canonicalizedResourceLoop, List.map_cons]
    rw [ih]
    simp only [String.append_assoc]
    rw [Join_push]

/-- The result of `canonicalizedResource`, for every request. -/
theorem canonicalizedResource_eq (a : Auth) (req : Request) :
    canonicalizedResource a req =
      Join (sortStrings (Split (Join (resourceLines a req) "\n") '\n')) "\n" := by
  simp only [canonicalizedResource, canonicalizedResourceLoop_eq, resourceLines]

theorem Join_comma_no_newline (xs : List String) (h : ∀ x ∈ xs, '\n' ∉ x.data) :
    '\n' ∉ (Join xs ",").data := by
  induction xs with
  | nil => simp [Join]
  | cons x rest ih =>
    cases rest with
    | nil => simpa [Join] using h x (List.mem_cons_self _ _)
    | cons y rest =>
      rw [Join_cons_cons]
      simp only [String.data_append, List.mem_append, not_or]
      exact ⟨⟨h x (List.mem_cons_self _ _), by decide⟩,
        ih (fun z hz => h z (List.mem_cons_of_mem _ hz))⟩

theorem resourceLines_no_newline (a : Auth) (req : Request)
    (ha : '\n' ∉ a.Account.data) (hp : '\n' ∉ req.URL.Path.data)
    (hq : ∀ e ∈ req.URL.Query, '\n' ∉ e.1.data ∧ ∀ v ∈ e.2, '\n' ∉ v.data) :
    ∀ x ∈ resourceLines a req, '\n' ∉ x.data := by
  intro x hx
  simp only [resourceLines, List.mem_cons, List.mem_map] at hx
  rcases hx with rfl | ⟨e, he, rfl⟩
  · simp only [String.data_append, List.mem_append, not_or]
    exact ⟨⟨by decide, ha⟩, hp⟩
  · simp only [String.data_append, List.mem_append, not_or]
    refine ⟨⟨(hq e he).1, by decide⟩, Join_comma_no_newline _ ?_⟩
    intro v hv
    exact (hq e he).2 v ((sortStrings_perm _).mem_iff.mp hv)

/-- C7, as stated, fails: for a path that holds a newline the result is not the sorted lines,
although the parameter `a` has two values without newline. -/
theorem canonicalizedResource_newline_path_counterexample :
    (∀ v ∈ ["2", "1"], '\n' ∉ v.data) ∧
    canonicalizedResource { Account := "acct", Key := "a2V5" }
      { Method := "GET", URL := { Path := "/c\nb", Query := [("a", ["2", "1"])] },
        Header := [], Body := [] } = "/acct/c\na:1,2\nb" ∧
    Join (sortStrings (resourceLines { Account := "acct", Key := "a2V5" }
      { Method := "GET", URL := { Path := "/c\nb", Query := [("a", ["2", "1"])] },
        Header := [], Body := [] })) "\n" = "/acct/c\nb\na:1,2" :=
  ⟨by decide, by decide, by decide⟩

/-- C7, amended: when the account, the path, the parameter names and the values hold no
newline, the result of `canonicalizedResource` is the ascending whole-line sort of the line
`/account` followed by the path and of one line per parameter name, `name:` followed by the
values of the name sorted ascending and joined by commas, joined by newlines; these are the
lines of the result. -/
theorem canonicalizedResource_lines (a : Auth) (req : Request)
    (ha : '\n' ∉ a.Account.data) (hp : '\n' ∉ req.URL.Path.data)
    (hq : ∀ e ∈ req.URL.Query, '\n' ∉ e.1.data ∧ ∀ v ∈ e.2, '\n' ∉ v.data) :
    ∃ L : List String, L.Perm (resourceLines a req) ∧ L.Sorted strLE ∧
      canonicalizedResource a req = Join L "\n" ∧
      Split (canonicalizedResource a req) '\n' = L ∧
      (∀ e ∈ req.URL.Query, ∃ vs : List String, vs.Perm e.2 ∧ vs.Sorted strLE ∧
        e.1 ++ ":" ++ Join vs "," ∈ L) := by
  have hno := resourceLines_no_newline a req ha hp hq
  have hne : resourceLines a req ≠ [] := by simp [resourceLines]
  have heq : canonicalizedResource a req = Join (sortStrings (resourceLines a req)) "\n" := by
    rw [canonicalizedResource_eq, Split_Join_lines _ hne hno]
  refine ⟨sortStrings (resourceLines a req), sortStrings_perm _, sortStrings_sorted _, heq,
    ?_, ?_⟩
  · rw [heq]
    apply Split_Join_lines
    · intro h
      have hperm := sortStrings_perm (resourceLines a req)
      rw [h] at hperm
      exact hne hperm.symm.eq_nil
    · intro x hx
      exact hno x ((sortStrings_perm _).mem_iff.mp hx)
  · intro e he
    refine ⟨sortStrings e.2, sortStrings_perm _, sortStrings_sorted _, ?_⟩
    apply (sortStrings_perm _).mem_iff.mpr
    simp only [resourceLines, List.mem_cons, List.mem_map]
    exact Or.inr ⟨e, he, rfl⟩

/-- The amended C7 at a URL with two values under the name `a`. -/
theorem canonicalizedResource_lines_witness :
    ∃ L : List String,
      L.Perm (resourceLines { Account := "acct", Key := "a2V5" }
        { Method := "GET", URL := { Path := "/c", Query := [("b", ["x"]), ("a", ["2", "1"])] },
          Header := [], Body := [] }) ∧ L.Sorted strLE ∧
      canonicalizedResource { Account := "acct", Key := "a2V5" }
        { Method := "GET", URL := { Path := "/c", Query := [("b", ["x"]), ("a", ["2", "1"])] },
          Header := [], Body := [] } = Join L "\n" ∧
      Split (canonicalizedResource { Account := "acct", Key := "a2V5" }
        { Method := "GET", URL := { Path := "/c", Query := [("b", ["x"]), ("a", ["2", "1"])] },
          Header := [], Body := [] }) '\n' = L ∧
      (∀ e ∈ [("b", ["x"]), ("a", ["2", "1"])], ∃ vs : List String,
        vs.Perm e.2 ∧ vs.Sorted strLE ∧ e.1 ++ ":" ++ Join vs "," ∈ L) :=
  canonicalizedResource_lines { Account := "acct", Key := "a2V5" }
    { Method := "GET", URL := { Path := "/c", Query := [("b", ["x"]), ("a", ["2", "1"])] },
      Header := [], Body := [] } (by decide) (by decide) (by decide)

/-! ## Upload -/

/-- The method `GetBlobSasUrl` returns no `*Error`. -/
theorem GetBlobSasUrl_no_azure (lib : Lib) (c : StorageClient) (container blob : String)
    (n : Int) (e : Error) : GetBlobSasUrl lib c container blob n ≠ .error (.azure e) := by
  unfold GetBlobSasUrl
  cases c.Auth with
  | none => simp [throw, throwThe, MonadExceptOf.throw]
  | some a =>
    simp only []
    cases lib.NewSharedKeyCredential a.Account a.Key with
    | error m => simp [liftErr, bind, Except.bind]
    | ok cred =>
      cases h2 : lib.NewSASQueryParameters
        { Protocol := "https", ExpiryTime := lib.AddDate lib.nowGetBlobSasUrl n,
          ContainerName := container, BlobName := blob, Permissions := "r" } cred with
      | error m => simp [h2, liftErr, bind, Except.bind]
      | ok qp => simp [h2, liftErr, bind, Except.bind, pure, Except.pure]

/-- Once the transport has answered and the body is read, `Upload` returns an `*Error`
exactly for a status code `c` with `400 < c < 600`, and its `Code` is `c`. -/
theorem Upload_fault_iff (lib : Lib) (az : AzureBlobUploader) (path name : String)
    (file : Except String (List UInt8)) (resp : Response)
    (hopen : lib.Open path = .ok file) (hrand : lib.GetRandomString 30 = .ok name)
    (hup : FileUpload lib (NewStorageClient az.account_name az.account_key) az.container_name
      (name ++ lib.pngExt) file = .ok resp)
    (hread : resp.BodyErr = none) :
    (∃ e, Upload lib az path = .error (.azure e)) ↔
      (400 < resp.StatusCode ∧ resp.StatusCode < 600) := by
  unfold Upload
  simp only [hopen, hrand, hup, liftErr, bind, Except.bind, hread]
  by_cases hc : resp.StatusCode > 400 ∧ resp.StatusCode < 600
  · simp only [if_pos hc, throw, throwThe, MonadExceptOf.throw]
    simp [hc.1, hc.2]
  · simp only [if_neg hc]
    constructor
    · rintro ⟨e, he⟩
      split at he
      · exact absurd he (GetBlobSasUrl_no_azure _ _ _ _ _ _)
      · simp [pure, Except.pure] at he
    · intro h; exact absurd h hc

/-- C8: for a response with status 400 `Upload` returns the URL of the blob and no error. -/
theorem Upload_status_400 :
    Upload
      (fakeLib { StatusCode := 400, Status := "400 Bad Request", Header := [],
                 Body := [60, 69, 114, 114, 111, 114, 47, 62], BodyErr := none })
      { account_name := "acct", account_key := "a2V5", container_name := "c",
        sas_token_expiration_days := 0 }
      "/tmp/panel.png"
    = .ok "https://acct.blob.core.windows.net/c/aaaaaaaaaaaaaaaaaaaaaaaaaaaaaa.png" :=
  rfl

/-- C10, as stated, fails: with a credential and `sasTokenExpiration = -1` the method
`GetBlobSasUrl` returns a URL, whose SAS expires a day before now (the clock of the double
stands at the Unix epoch, so at `-86400`). -/
theorem GetBlobSasUrl_negative_counterexample :
    (NewStorageClient "acct" "a2V5").Auth ≠ none ∧ (-1 : Int) < 0 ∧
    GetBlobSasUrl
      (fakeLib { StatusCode := 201, Status := "201 Created", Header := [], Body := [],
                 BodyErr := none })
      (NewStorageClient "acct" "a2V5") "c" "b.png" (-1)
    = .ok "https://acct.blob.core.windows.net/c/b.png?se=-86400&sp=r&spr=https&sr=b" :=
  ⟨by simp [NewStorageClient], by decide, rfl⟩

/-- C10, amended: `GetBlobSasUrl` does not look at the sign of `sasTokenExpiration`. With a
credential, for every number, negative or not, whenever `azblob.NewSharedKeyCredential` and
`NewSASQueryParameters` succeed it returns the URL of the blob with the SAS query, signed for
the expiry time `time.Now().UTC().AddDate(0, 0, sasTokenExpiration)`; it returns an error
only when one of the two calls does. -/
theorem GetBlobSasUrl_any_sign (lib : Lib) (c : StorageClient) (a : Auth)
    (container blob : String) (n : Int) (hc : c.Auth = some a) :
    (∀ cred qp, lib.NewSharedKeyCredential a.Account a.Key = .ok cred →
      lib.NewSASQueryParameters
        { Protocol := "https", ExpiryTime := lib.AddDate lib.nowGetBlobSasUrl n,
          ContainerName := container, BlobName := blob, Permissions := "r" } cred = .ok qp →
      GetBlobSasUrl lib c container blob n =
        .ok ("https://" ++ a.Account ++ ".blob.core.windows.net/" ++ container ++ "/" ++ blob
          ++ "?" ++ qp))
    ∧ (∀ e, GetBlobSasUrl lib c container blob n = .error e →
        ∃ m, e = .err m ∧
          (lib.NewSharedKeyCredential a.Account a.Key = .error m
          ∨ ∃ cred, lib.NewSharedKeyCredential a.Account a.Key = .ok cred ∧
              lib.NewSASQueryParameters
                { Protocol := "https", ExpiryTime := lib.AddDate lib.nowGetBlobSasUrl n,
                  ContainerName := container, BlobName := blob, Permissions := "r" } cred
                = .error m)) := by
  constructor
  · intro cred qp h1 h2
    unfold GetBlobSasUrl
    simp [hc, h1, h2, liftErr, bind, Except.bind, pure, Except.pure]
  · intro e he
    unfold GetBlobSasUrl at he
    simp only [hc] at he
    cases h1 : lib.NewSharedKeyCredential a.Account a.Key with
    | error m =>
      simp only [h1, liftErr, bind, Except.bind, Except.error.injEq] at he
      exact ⟨m, he.symm, Or.inl rfl⟩
    | ok cred =>
      simp only [h1, liftErr, bind, Except.bind] at he
      cases h2 : lib.NewSASQueryParameters
        { Protocol := "https", ExpiryTime := lib.AddDate lib.nowGetBlobSasUrl n,
          ContainerName := container, BlobName := blob, Permissions := "r" } cred with
      | error m =>
        simp only [h2, Except.error.injEq] at he
        exact ⟨m, he.symm, Or.inr ⟨cred, rfl, h2⟩⟩
      | ok qp => simp [h2, pure, Except.pure] at he

/-- The amended C10 at a concrete client and the number `-1`. -/
theorem GetBlobSasUrl_any_sign_witness :
    GetBlobSasUrl
      (fakeLib { StatusCode := 201, Status := "201 Created", Header := [], Body := [],
                 BodyErr := none })
      (NewStorageClient "acct" "a2V5") "c" "b.png" (-1)
    = .ok ("https://" ++ "acct" ++ ".blob.core.windows.net/" ++ "c" ++ "/" ++ "b.png"
          ++ "?" ++ "se=-86400&sp=r&spr=https&sr=b") :=
  ((GetBlobSasUrl_any_sign
    (fakeLib { StatusCode := 201, Status := "201 Created", Header := [], Body := [],
               BodyErr := none })
    (NewStorageClient "acct" "a2V5") { Account := "acct", Key := "a2V5" } "c" "b.png" (-1)
    rfl).1 ("acct", [107, 101, 121]) "se=-86400&sp=r&spr=https&sr=b" (by rfl) (by rfl))

/-! ## Blob names -/

set_option maxRecDepth 100000 in
/-- The only byte that `url.QueryEscape` writes as `+` is the space. -/
theorem queryEscapeByte_plus : ∀ n < 256,
    (n = 32 → queryEscapeByte n = ['+']) ∧ (n ≠ 32 → '+' ∉ queryEscapeByte n) := by
  decide

set_option maxRecDepth 100000 in
/-- After the first replacement a byte is one character other than `%`, or `%2F`, or `%` and
two hex digits other than `2F`; the second replacement turns it into its claimed encoding. -/
theorem plusReplacedByte_shape : ∀ n < 256,
    ((plusReplacedByte n).length = 1 ∧ '%' ∉ plusReplacedByte n ∧
        escapedByte n = plusReplacedByte n)
    ∨ (plusReplacedByte n = ['%', '2', 'F'] ∧ escapedByte n = ['/'])
    ∨ ((plusReplacedByte n).length = 3 ∧ (plusReplacedByte n).head? = some '%' ∧
        '%' ∉ (plusReplacedByte n).tail ∧ plusReplacedByte n ≠ ['%', '2', 'F'] ∧
        escapedByte n = plusReplacedByte n) := by
  decide

set_option maxRecDepth 100000 in
theorem escapedByte_clean : ∀ n < 256, '+' ∉ escapedByte n ∧ ' ' ∉ escapedByte n := by
  decide

theorem replaceChars_single_skip (o : Char) (new t rest : List Char) (h : o ∉ t) :
    replaceChars [o] new 0 (t ++ rest) = t ++ replaceChars [o] new 0 rest := by
  induction t with
  | nil => rfl
  | cons c cs ih =>
    have hc : ¬ o = c := fun e => h (by simp [e])
    have hcs : o ∉ cs := fun e => h (List.mem_cons_of_mem _ e)
    simp [replaceChars, List.isPrefixOf, hc, ih hcs]

theorem replaceChars_single_hit (o : Char) (new rest : List Char) :
    replaceChars [o] new 0 (o :: rest) = new ++ replaceChars [o] new 0 rest := by
  simp [replaceChars, List.isPrefixOf]

/-- The first replacement of `escape`, byte by byte. -/
theorem replace_plus (bs : List UInt8) :
    replaceChars ['+'] ['%', '2', '0'] 0 (bs.flatMap (fun b => queryEscapeByte b.toNat))
      = bs.flatMap (fun b => plusReplacedByte b.toNat) := by
  induction bs with
  | nil => rfl
  | cons b rest ih =>
    have hq := queryEscapeByte_plus b.toNat (UInt8.toNat_lt b)
    simp only [List.flatMap_cons]
    by_cases h32 : b.toNat = 32
    · rw [hq.1 h32]
      simp only [List.singleton_append]
      rw [replaceChars_single_hit, ih]
      simp [plusReplacedByte, h32]
    · rw [replaceChars_single_skip _ _ _ _ (hq.2 h32), ih]
      simp [plusReplacedByte, h32]

/-- The second replacement of `escape` on one byte followed by any text. -/
theorem replace_slash_token (n : Nat) (hn : n < 256) (rest : List Char) :
    replaceChars ['%', '2', 'F'] ['/'] 0 (plusReplacedByte n ++ rest)
      = escapedByte n ++ replaceChars ['%', '2', 'F'] ['/'] 0 rest := by
  rcases plusReplacedByte_shape n hn with ⟨hl, hp, he⟩ | ⟨ht, he⟩ | ⟨hl, hh, hp, hne, he⟩
  · rw [he]
    match ht : plusReplacedByte n, hl, hp with
    | [c], _, hp =>
      have hc : ¬ '%' = c := fun e => hp (List.mem_singleton.mpr e)
      simp [replaceChars, List.isPrefixOf, hc]
  · rw [he, ht]
    simp [replaceChars, List.isPrefixOf]
  · rw [he]
    match ht : plusReplacedByte n, hl, hh, hp, hne with
    | [p, x, y], _, hh, hp, hne =>
      have hpp : p = '%' := by simpa using hh
      subst hpp
      have hx : ¬ '%' = x := fun e => hp (List.mem_cons.mpr (Or.inl e))
      have hy : ¬ '%' = y := fun e => hp (List.mem_cons_of_mem _ (List.mem_singleton.mpr e))
      have hxy : ¬ ('2' = x ∧ 'F' = y) := by
        rintro ⟨rfl, rfl⟩
        exact hne rfl
      by_cases h2 : '2' = x
      · have hF : ¬ 'F' = y := fun e => hxy ⟨h2, e⟩
        simp [replaceChars, List.isPrefixOf, hx, hy, h2, hF]
      · simp [replaceChars, List.isPrefixOf, hx, hy, h2]

/-- The second replacement of `escape`, byte by byte. -/
theorem replace_slash (bs : List UInt8) :
    replaceChars ['%', '2', 'F'] ['/'] 0 (bs.flatMap (fun b => plusReplacedByte b.toNat))
      = bs.flatMap (fun b => escapedByte b.toNat) := by
  induction bs with
  | nil => rfl
  | cons b rest ih =>
    simp only [List.flatMap_cons]
    rw [replace_slash_token _ (UInt8.toNat_lt b), ih]

/-- C9: `escape` encodes a blob name byte by byte: ASCII letters, digits, `-`, `_`, `.`, `~`
and `/` are kept, a space becomes `%20`, and every other byte (so `+` as `%2B` and `%` as
`%25`) becomes `%` and its two upper-case hex digits; the result holds no `+` and no space,
and `my file+name.png` escapes to `my%20file%2Bname.png`. -/
theorem escape_bytewise (content : String) :
    escape content = ⟨(bytesOf content).flatMap (fun b => escapedByte b.toNat)⟩
    ∧ '+' ∉ (escape content).data ∧ ' ' ∉ (escape content).data
    ∧ escapedByte 47 = ['/'] ∧ escapedByte 43 = ['%', '2', 'B']
    ∧ escapedByte 37 = ['%', '2', '5']
    ∧ escape "my file+name.png" = "my%20file%2Bname.png" := by
  have h : escape content = ⟨(bytesOf content).flatMap (fun b => escapedByte b.toNat)⟩ := by
    simp only [escape, ReplaceAll, QueryEscape]
    rw [replace_plus, replace_slash]
  have hclean : ∀ c ∈ (escape content).data, c ≠ '+' ∧ c ≠ ' ' := by
    intro c hc
    rw [h] at hc
    simp only [List.mem_flatMap] at hc
    obtain ⟨b, _, hcb⟩ := hc
    have hb := escapedByte_clean b.toNat (UInt8.toNat_lt b)
    constructor
    · rintro rfl; exact hb.1 hcb
    · rintro rfl; exact hb.2 hcb
  refine ⟨h, fun hm => (hclean _ hm).1 rfl, fun hm => (hclean _ hm).2 rfl, by decide,
    by decide, by decide, by decide⟩

/-! ## The URL that `Upload` returns -/

/-- C11: once the transport has answered with a status that is no failure, `Upload` with
`sas_token_expiration_days = 0` (or any number that is not positive) returns exactly the URL
of the blob, without query string, whatever the SAS functions of the library would return;
for a positive number the result is that of `GetBlobSasUrl`. -/
theorem Upload_plain_url (lib : Lib) (az : AzureBlobUploader) (path name : String)
    (file : Except String (List UInt8)) (resp : Response)
    (hopen : lib.Open path = .ok file) (hrand : lib.GetRandomString 30 = .ok name)
    (hup : FileUpload lib (NewStorageClient az.account_name az.account_key) az.container_name
      (name ++ lib.pngExt) file = .ok resp)
    (hst : ¬ (resp.StatusCode > 400 ∧ resp.StatusCode < 600)) :
    (az.sas_token_expiration_days ≤ 0 →
      Upload lib az path = .ok ("https://" ++ az.account_name ++ ".blob.core.windows.net/"
        ++ az.container_name ++ "/" ++ (name ++ lib.pngExt)))
    ∧ (0 < az.sas_token_expiration_days →
      Upload lib az path = GetBlobSasUrl lib (NewStorageClient az.account_name az.account_key)
        az.container_name (name ++ lib.pngExt) az.sas_token_expiration_days) := by
  unfold Upload
  simp only [hopen, hrand, hup, liftErr, bind, Except.bind, if_neg hst]
  constructor
  · intro hd
    have hn : ¬ az.sas_token_expiration_days > 0 := by omega
    simp only [if_neg hn, pure, Except.pure]
  · intro hd
    have hp : az.sas_token_expiration_days > 0 := hd
    simp only [if_pos hp]

/-- The claim C11 at an upload answered with status 201 and zero days. -/
theorem Upload_plain_url_witness :
    Upload
      (fakeLib { StatusCode := 201, Status := "201 Created", Header := [], Body := [],
                 BodyErr := none })
      { account_name := "acct", account_key := "a2V5", container_name := "c",
        sas_token_expiration_days := 0 }
      "/tmp/panel.png"
    = .ok ("https://" ++ "acct" ++ ".blob.core.windows.net/" ++ "c" ++ "/"
        ++ ("aaaaaaaaaaaaaaaaaaaaaaaaaaaaaa" ++ ".png")) :=
  (Upload_plain_url
    (fakeLib { StatusCode := 201, Status := "201 Created", Header := [], Body := [],
               BodyErr := none })
    { account_name := "acct", account_key := "a2V5", container_name := "c",
      sas_token_expiration_days := 0 }
    "/tmp/panel.png" "aaaaaaaaaaaaaaaaaaaaaaaaaaaaaa" (.ok [])
    { StatusCode := 201, Status := "201 Created", Header := [], Body := [], BodyErr := none }
    (by rfl) (by rfl) (by rfl) (by decide)).1 (by decide)

/-! ## Reading the standard headers -/

/-- In a map, the slice stored under a key is what the lookup yields. -/
theorem Values.get_of_mem (h : Values) (hnd : (h.map Prod.fst).Nodup) (key : String)
    (value : List String) (hm : (key, value) ∈ h) : h.get key = value := by
  induction h with
  | nil => simp at hm
  | cons e rest ih =>
    have hnd2 : e.1 ∉ rest.map Prod.fst ∧ (rest.map Prod.fst).Nodup := List.nodup_cons.mp hnd
    by_cases he : e.1 = key
    · have hfind : Values.get (e :: rest) key = e.2 := by
        simp [Values.get, List.find?, he]
      rw [hfind]
      rcases List.mem_cons.mp hm with hx | hx
      · rw [← hx]
      · exfalso
        apply hnd2.1
        rw [he]
        exact List.mem_map.mpr ⟨(key, value), hx, rfl⟩
    · have hb : (e.1 == key) = false := by simp [he]
      have hfind : Values.get (e :: rest) key = Values.get rest key := by
        simp only [Values.get, List.find?, hb]
      rw [hfind]
      rcases List.mem_cons.mp hm with hx | hx
      · exact absurd (by rw [← hx]) he
      · exact ih hnd2.2 hx

/-- A key that is not in the map yields the nil slice. -/
theorem Values.get_of_not_mem (h : Values) (key : String)
    (hm : ∀ value, (key, value) ∉ h) : h.get key = [] := by
  induction h with
  | nil => rfl
  | cons e rest ih =>
    have he : ¬ e.1 = key := by
      intro he
      apply hm e.2
      rw [← he]
      exact List.mem_cons_self _ _
    have hb : (e.1 == key) = false := by simp [he]
    have hfind : Values.get (e :: rest) key = Values.get rest key := by
      simp only [Values.get, List.find?, hb]
    rw [hfind]
    exact ih (fun v hv => hm v (List.mem_cons_of_mem _ hv))

/-- C15, as stated, fails: a header stored as `content-type` is not found when `SignRequest`
looks up the standard name `Content-Type`, which differs from it in letter case only. -/
theorem tryget_case_counterexample :
    "Content-Type" ∈ standardHeaders ∧
    lowerCased (fakeLib created) "Content-Type" = lowerCased (fakeLib created) "content-type" ∧
    tryget [("content-type", ["image/png"])] "Content-Type" = "" ∧
    strToSign (fakeLib created) { Account := "acct", Key := "a2V5" }
      { Method := "PUT", URL := { Path := "/c/b.png", Query := [] },
        Header := [("content-type", ["image/png"])], Body := [] }
      = .ok "PUT\n\n\n\n\n\n\n\n\n\n\n\n\n/acct/c/b.png" :=
  ⟨by decide, by decide, by decide, rfl⟩

/-- C15, amended: the value `tryget` yields for a name, so the value `SignRequest` uses for
each of the eleven standard names, is the first value stored under exactly that name, and
the empty string when the slice stored under it is empty or when no entry has exactly that
name, whatever is stored under names that differ from it in letter case. -/
theorem tryget_exact_key (h : Values) (hnd : (h.map Prod.fst).Nodup) (key : String) :
    (∀ v vs, (key, v :: vs) ∈ h → tryget h key = v)
    ∧ ((key, []) ∈ h → tryget h key = "")
    ∧ ((∀ value, (key, value) ∉ h) → tryget h key = "") := by
  refine ⟨?_, ?_, ?_⟩
  · intro v vs hm
    simp [tryget, Values.get_of_mem h hnd key _ hm]
  · intro hm
    simp [tryget, Values.get_of_mem h hnd key _ hm]
  · intro hm
    simp [tryget, Values.get_of_not_mem h key hm]

/-- The amended C15 at a map that holds the name in two letter cases. -/
theorem tryget_exact_key_witness :
    (∀ v vs, ("Content-Type", v :: vs) ∈ [("content-type", ["text/plain"]),
        ("Content-Type", ["image/png"])] →
      tryget [("content-type", ["text/plain"]), ("Content-Type", ["image/png"])] "Content-Type"
        = v)
    ∧ (("Content-Type", []) ∈ [("content-type", ["text/plain"]),
        ("Content-Type", ["image/png"])] →
      tryget [("content-type", ["text/plain"]), ("Content-Type", ["image/png"])] "Content-Type"
        = "")
    ∧ ((∀ value, ("Content-Type", value) ∉ [("content-type", ["text/plain"]),
        ("Content-Type", ["image/png"])]) →
      tryget [("content-type", ["text/plain"]), ("Content-Type", ["image/png"])] "Content-Type"
        = "") :=
  tryget_exact_key [("content-type", ["text/plain"]), ("Content-Type", ["image/png"])]
    (by decide) "Content-Type"

/-- C16: for a header stored as `Content-Length: 0` the function `tryget` returns `0`, and
the string to sign carries `0` on its fourth line. -/
theorem tryget_zero :
    tryget [("Content-Length", ["0"])] "Content-Length" = "0" ∧
    strToSign (fakeLib created) { Account := "acct", Key := "a2V5" }
      { Method := "PUT", URL := { Path := "/c/b.png", Query := [] },
        Header := [("Content-Length", ["0"])], Body := [] }
      = .ok "PUT\n\n\n0\n\n\n\n\n\n\n\n\n\n/acct/c/b.png" :=
  ⟨by decide, rfl⟩

/-! ## Order and bounds in `canonicalizedHeaders` -/

/-- C14: for the headers `x-ms-range` and `x-ms-range-get-content-md5` the line of the
second comes first in the result of `canonicalizedHeaders`, although the name of the first
is the smaller one. -/
theorem canonicalizedHeaders_not_by_name :
    ltChars "x-ms-range".data "x-ms-range-get-content-md5".data = true ∧
    canonicalizedHeaders (fakeLib created) { Account := "acct", Key := "a2V5" }
      { Method := "GET", URL := { Path := "/c/b.png", Query := [] },
        Header := [("x-ms-range", ["bytes=0-9"]), ("x-ms-range-get-content-md5", ["true"])],
        Body := [] }
      = .ok "x-ms-range-get-content-md5:true\nx-ms-range:bytes=0-9" :=
  ⟨by decide, rfl⟩

/-- C17: for a header `X-Ms-Meta` with an empty slice of values `canonicalizedHeaders`
panics with an index out of range, and so does `SignRequest`. -/
theorem canonicalizedHeaders_empty_values_panic :
    canonicalizedHeaders (fakeLib created) { Account := "acct", Key := "a2V5" }
      { Method := "GET", URL := { Path := "/c/b.png", Query := [] },
        Header := [("X-Ms-Meta", [])], Body := [] }
      = .error (.panic "index out of range [0] with length 0") ∧
    SignRequest
      (fakeLib { StatusCode := 201, Status := "201 Created", Header := [], Body := [],
                 BodyErr := none })
      { Account := "acct", Key := "a2V5" }
      { Method := "GET", URL := { Path := "/c/b.png", Query := [] },
        Header := [("X-Ms-Meta", [])], Body := [] }
      = .error (.panic "index out of range [0] with length 0") ∧
    tryget [("X-Ms-Meta", [])] "X-Ms-Meta" = "" :=
  ⟨rfl, rfl, by decide⟩

/-! ## What the signature depends on -/

/-- Assigning a key leaves the slice stored under any other key as it was. -/
theorem Values.get_set_ne (h : Values) (key other : String) (value : List String)
    (hne : other ≠ key) : (h.set key value).get other = h.get other := by
  have hko : (key == other) = false := by simp [Ne.symm hne]
  unfold Values.get Values.set
  by_cases hany : h.any (fun e => e.1 == key) = true
  · rw [if_pos hany]
    have hf : List.find? (fun e => e.1 == other)
        (h.map (fun e => if (e.1 == key) = true then (key, value) else e))
        = List.find? (fun e => e.1 == other) h := by
      clear hany
      induction h with
      | nil => rfl
      | cons e rest ih =>
        by_cases he : (e.1 == key) = true
        · have hek : e.1 = key := by simpa using he
          have heo : (e.1 == other) = false := by rw [hek]; exact hko
          simp only [List.map_cons, he, if_true, List.find?_cons, hko, heo]
          exact ih
        · have hb : (e.1 == key) = false := by simpa using he
          simp only [List.map_cons, hb, Bool.false_eq_true, if_false, List.find?_cons, ih]
    rw [hf]
  · rw [if_neg hany]
    have hf : List.find? (fun e => e.1 == other) (h ++ [(key, value)])
        = List.find? (fun e => e.1 == other) h := by
      clear hany
      induction h with
      | nil => simp [List.find?, hko]
      | cons e rest ih =>
        simp only [List.cons_append, List.find?_cons, ih]
    rw [hf]

theorem tryget_set_ne (h : Values) (key other : String) (value : List String)
    (hne : other ≠ key) : tryget (h.set key value) other = tryget h other := by
  simp only [tryget, Values.get_set_ne h key other value hne]

theorem tryget_set_self (h : Values) (key : String) (v : String) (vs : List String) :
    tryget (h.set key (v :: vs)) key = v := by
  simp only [tryget, Values.get_set]

/-- Assigning a key without the `x-ms-` prefix leaves the `x-ms-` headers as they were. -/
theorem filter_ms_set {lib : Lib} (h : Values) (key : String) (value : List String)
    (hk : HasPrefix (ToLower lib key) "x-ms-" = false) :
    (h.set key value).filter (isMsHeader lib) = h.filter (isMsHeader lib) := by
  have hkv : ∀ val, isMsHeader lib (key, val) = false := fun _ => hk
  unfold Values.set
  split
  · clear * - hk hkv
    induction h with
    | nil => rfl
    | cons e rest ih =>
      by_cases he : (e.1 == key) = true
      · have hek : e.1 = key := by simpa using he
        have hms : isMsHeader lib e = false := by
          simp only [isMsHeader, hek]; exact hk
        simp only [List.map_cons, he, if_true, List.filter_cons, hkv, hms]
        simpa using ih
      · have hb : (e.1 == key) = false := by simpa using he
        simp only [List.map_cons, hb, Bool.false_eq_true, if_false, List.filter_cons, ih]
  · simp [List.filter_append, List.filter_cons, hkv]

/-- The loop of `canonicalizedHeaders` reads the `x-ms-` headers only. -/
theorem canonicalizedHeadersLoop_filter {lib : Lib} (h : Values) :
    ∀ b : String,
      canonicalizedHeadersLoop lib h b = canonicalizedHeadersLoop lib (h.filter (isMsHeader lib)) b := by
  induction h with
  | nil => intro b; rfl
  | cons e rest ih =>
    intro b
    obtain ⟨key, value⟩ := e
    by_cases hm : HasPrefix (ToLower lib key) "x-ms-" = true
    · have hms : isMsHeader lib (key, value) = true := hm
      simp only [List.filter_cons, hms, if_true, canonicalizedHeadersLoop, hm]
      cases value with
      | nil => rfl
      | cons v0 vs =>
        simp only []
        split
        · exact ih _
        · exact ih _
    · have hms : ¬ isMsHeader lib (key, value) = true := hm
      simp only [List.filter_cons, hms, if_false, canonicalizedHeadersLoop, hm]
      exact ih b

/-- The method `canonicalizedHeaders` depends on the set of `x-ms-` headers only. -/
theorem canonicalizedHeaders_of_ms_perm {lib : Lib} (a : Auth) (r1 r2 : Request)
    (h : (r1.Header.filter (isMsHeader lib)).Perm (r2.Header.filter (isMsHeader lib))) :
    canonicalizedHeaders lib a r1 = canonicalizedHeaders lib a r2 := by
  have hpre : ∀ (l : Values), ∀ e ∈ l.filter (isMsHeader lib),
      HasPrefix (ToLower lib e.1) "x-ms-" = true := by
    intro l e he
    exact (List.mem_filter.mp he).2
  unfold canonicalizedHeaders
  rw [canonicalizedHeadersLoop_filter r1.Header, canonicalizedHeadersLoop_filter r2.Header]
  by_cases hp : ∃ e ∈ r1.Header.filter (isMsHeader lib), e.2 = []
  · obtain ⟨e, he, h0⟩ := hp
    rw [canonicalizedHeadersLoop_panic _ ⟨e, he, hpre _ e he, h0⟩,
      canonicalizedHeadersLoop_panic _
        ⟨e, h.mem_iff.mp he, hpre _ e (h.mem_iff.mp he), h0⟩]
  · have hv1 : ∀ e ∈ r1.Header.filter (isMsHeader lib),
        HasPrefix (ToLower lib e.1) "x-ms-" = true → e.2 ≠ [] :=
      fun e he _ hn => hp ⟨e, he, hn⟩
    have hv2 : ∀ e ∈ r2.Header.filter (isMsHeader lib),
        HasPrefix (ToLower lib e.1) "x-ms-" = true → e.2 ≠ [] :=
      fun e he _ hn => hp ⟨e, h.mem_iff.mpr he, hn⟩
    rw [canonicalizedHeadersLoop_empty _ hv1, canonicalizedHeadersLoop_empty _ hv2]
    have hl : (headerLines lib (r1.Header.filter (isMsHeader lib))).Perm
        (headerLines lib (r2.Header.filter (isMsHeader lib))) := h.filterMap _
    simp only [bind, Except.bind, pure, Except.pure]
    by_cases hnil : headerLines lib (r1.Header.filter (isMsHeader lib)) = []
    · have hnil2 : headerLines lib (r2.Header.filter (isMsHeader lib)) = [] := by
        rw [hnil] at hl
        exact hl.symm.eq_nil
      rw [hnil, hnil2]
    · have hnil2 : headerLines lib (r2.Header.filter (isMsHeader lib)) ≠ [] := by
        intro h2
        rw [h2] at hl
        exact hnil hl.eq_nil
      rw [Split_Join _ hnil, Split_Join _ hnil2, sortStrings_eq_of_perm (hl.flatMap_right _)]

/-- The method `canonicalizedResource` depends on the account, the path and the set of
query parameters only. -/
theorem canonicalizedResource_of_perm (a : Auth) (r1 r2 : Request)
    (hp : r1.URL.Path = r2.URL.Path) (hq : r1.URL.Query.Perm r2.URL.Query) :
    canonicalizedResource a r1 = canonicalizedResource a r2 := by
  rw [canonicalizedResource_eq, canonicalizedResource_eq]
  have hl : (resourceLines a r1).Perm (resourceLines a r2) := by
    simp only [resourceLines, hp]
    exact List.Perm.cons _ (hq.map _)
  rw [Split_Join _ (by simp [resourceLines]), Split_Join _ (by simp [resourceLines]),
    sortStrings_eq_of_perm (hl.flatMap_right _)]

/-- The string to sign is the same for two requests that agree on the method, on the
eleven standard header values, on the canonicalized headers and on the canonicalized
resource. -/
theorem strToSign_congr {lib : Lib} (a : Auth) (r1 r2 : Request) (hm : r1.Method = r2.Method)
    (hstd : ∀ k ∈ standardHeaders, tryget r1.Header k = tryget r2.Header k)
    (hch : canonicalizedHeaders lib a r1 = canonicalizedHeaders lib a r2)
    (hcr : canonicalizedResource a r1 = canonicalizedResource a r2) :
    strToSign lib a r1 = strToSign lib a r2 := by
  unfold strToSign
  rw [hm, hch, hcr,
    hstd "Content-Encoding" (by decide), hstd "Content-Language" (by decide),
    hstd "Content-Length" (by decide), hstd "Content-MD5" (by decide),
    hstd "Content-Type" (by decide), hstd "Date" (by decide),
    hstd "If-Modified-Since" (by decide), hstd "If-Match" (by decide),
    hstd "If-None-Match" (by decide), hstd "If-Unmodified-Since" (by decide),
    hstd "Range" (by decide)]

/-- The `Authorization` value that `SignRequest` leaves, from the string to sign. -/
theorem authorizationOf_SignRequest (lib : Lib) (a : Auth) (req : Request) :
    authorizationOf (SignRequest lib a req) = (strToSign lib a req).map (fun s =>
      ["SharedKey " ++ a.Account ++ ":" ++
        lib.EncodeToString (lib.hmacSHA256 (lib.DecodeString a.Key).1 (bytesOf s))]) := by
  unfold authorizationOf SignRequest
  cases strToSign lib a req with
  | error e => rfl
  | ok s =>
    simp only [bind, Except.bind, pure, Except.pure, Except.map, copyHeadersToRequest,
      List.foldl, Values.get_set]

/-- In a map, a lookup does not depend on the order in which the entries are visited. -/
theorem Values.get_perm (h1 h2 : Values) (hp : h1.Perm h2) (hnd : (h1.map Prod.fst).Nodup)
    (key : String) : h1.get key = h2.get key := by
  have hnd2 : (h2.map Prod.fst).Nodup := (hp.map Prod.fst).nodup_iff.mp hnd
  by_cases hm : ∃ value, (key, value) ∈ h1
  · obtain ⟨value, hv⟩ := hm
    rw [Values.get_of_mem h1 hnd key value hv,
      Values.get_of_mem h2 hnd2 key value (hp.mem_iff.mp hv)]
  · have n1 : ∀ value, (key, value) ∉ h1 := fun v hv => hm ⟨v, hv⟩
    have n2 : ∀ value, (key, value) ∉ h2 := fun v hv => hm ⟨v, hp.mem_iff.mpr hv⟩
    rw [Values.get_of_not_mem h1 key n1, Values.get_of_not_mem h2 key n2]

/-- C12: the `Authorization` value that `SignRequest` leaves is a function of the method,
the eleven standard header values, the set of `x-ms-` headers, the account, the key, the
path and the set of query parameters: signing a signed request again leaves the same value,
the value does not depend on an `Authorization` header already present, and it is the same
for two requests that differ only in the order in which the entries of the header map and of
the query are visited. -/
theorem SignRequest_deterministic (lib : Lib) (a : Auth) (req : Request) :
    (∀ req1, SignRequest lib a req = .ok req1 →
      authorizationOf (SignRequest lib a req1) = .ok (req1.Header.get "Authorization"))
    ∧ (∀ v, authorizationOf
        (SignRequest lib a { req with Header := req.Header.set "Authorization" v })
        = authorizationOf (SignRequest lib a req))
    ∧ (∀ r2 : Request, r2.Method = req.Method →
        (∀ k ∈ standardHeaders, tryget r2.Header k = tryget req.Header k) →
        (r2.Header.filter (isMsHeader lib)).Perm (req.Header.filter (isMsHeader lib)) →
        r2.URL.Path = req.URL.Path → r2.URL.Query.Perm req.URL.Query →
        authorizationOf (SignRequest lib a r2) = authorizationOf (SignRequest lib a req))
    ∧ (∀ r2 : Request, r2.Method = req.Method →
        r2.Header.Perm req.Header → (req.Header.map Prod.fst).Nodup →
        r2.URL.Path = req.URL.Path → r2.URL.Query.Perm req.URL.Query →
        authorizationOf (SignRequest lib a r2) = authorizationOf (SignRequest lib a req)) := by
  have part3 : ∀ r2 : Request, r2.Method = req.Method →
      (∀ k ∈ standardHeaders, tryget r2.Header k = tryget req.Header k) →
      (r2.Header.filter (isMsHeader lib)).Perm (req.Header.filter (isMsHeader lib)) →
      r2.URL.Path = req.URL.Path → r2.URL.Query.Perm req.URL.Query →
      authorizationOf (SignRequest lib a r2) = authorizationOf (SignRequest lib a req) := by
    intro r2 hm hstd hms hp hq
    rw [authorizationOf_SignRequest, authorizationOf_SignRequest,
      strToSign_congr a r2 req hm hstd (canonicalizedHeaders_of_ms_perm a r2 req hms)
        (canonicalizedResource_of_perm a r2 req hp hq)]
  have part2 : ∀ v, authorizationOf
      (SignRequest lib a { req with Header := req.Header.set "Authorization" v })
      = authorizationOf (SignRequest lib a req) := by
    intro v
    apply part3
    · rfl
    · intro k hk
      have hne : k ≠ "Authorization" := by
        intro e
        rw [e] at hk
        exact absurd hk (by decide)
      exact tryget_set_ne _ _ _ _ hne
    · have e : (Values.set req.Header "Authorization" v).filter (isMsHeader lib)
          = req.Header.filter (isMsHeader lib) := filter_ms_set _ _ _ (by rfl)
      show ((Values.set req.Header "Authorization" v).filter (isMsHeader lib)).Perm _
      rw [e]
    · rfl
    · exact List.Perm.refl _
  refine ⟨?_, part2, part3, ?_⟩
  · intro req1 h
    have hform : ∃ v, req1 = { req with Header := req.Header.set "Authorization" v } := by
      unfold SignRequest at h
      cases hs : strToSign lib a req with
      | error e => simp [hs, bind, Except.bind] at h
      | ok s =>
        simp only [hs, bind, Except.bind, pure, Except.pure, Except.ok.injEq] at h
        exact ⟨_, h.symm⟩
    obtain ⟨v, hv⟩ := hform
    rw [hv, part2 v, h, hv]
    rfl
  · intro r2 hm hperm hnd hp hq
    apply part3 r2 hm _ (hperm.filter _) hp hq
    intro k _
    simp only [tryget, Values.get_perm _ _ hperm.symm hnd k]

/-! ## Sensitivity to a standard header -/

/-- C13: when the first value stored under one of the eleven standard names is replaced by
a different one, everything else being the same, the string to sign exists as before and
is a different string. -/
theorem strToSign_sensitive (lib : Lib) (a : Auth) (req : Request) (name : String)
    (hname : name ∈ standardHeaders) (v w : String) (vs : List String)
    (hget : req.Header.get name = v :: vs) (hne : v ≠ w) :
    ∀ s, strToSign lib a req = .ok s →
      ∃ t, strToSign lib a { req with Header := req.Header.set name (w :: vs) } = .ok t ∧
        t ≠ s := by
  intro s hs
  have hall : ∀ n ∈ standardHeaders, HasPrefix (ToLower lib n) "x-ms-" = false := by
    intro n hn
    simp only [standardHeaders, List.mem_cons, List.mem_singleton, List.not_mem_nil,
      or_false] at hn
    rcases hn with h | h | h | h | h | h | h | h | h | h | h <;> subst h <;> rfl
  have hpre : HasPrefix (ToLower lib name) "x-ms-" = false := hall name hname
  have hch : canonicalizedHeaders lib a { req with Header := req.Header.set name (w :: vs) }
      = canonicalizedHeaders lib a req := by
    apply canonicalizedHeaders_of_ms_perm
    show ((Values.set req.Header name (w :: vs)).filter (isMsHeader lib)).Perm _
    rw [filter_ms_set _ _ _ hpre]
  have hold : tryget req.Header name = v := by simp only [tryget, hget]
  have hnew : tryget (Values.set req.Header name (w :: vs)) name = w :=
    tryget_set_self _ _ _ _
  have hother : ∀ k, k ≠ name →
      tryget (Values.set req.Header name (w :: vs)) k = tryget req.Header k :=
    fun k hk => tryget_set_ne _ _ _ _ hk
  have hcr : canonicalizedResource a { req with Header := req.Header.set name (w :: vs) }
      = canonicalizedResource a req := rfl
  have hdata : v.data ≠ w.data := fun e => hne (String.ext e)
  unfold strToSign at hs ⊢
  rw [hch]
  cases hc : canonicalizedHeaders lib a req with
  | error e => simp [hc, bind, Except.bind] at hs
  | ok ch =>
    simp only [hc, bind, Except.bind, pure, Except.pure, Except.ok.injEq] at hs ⊢
    refine ⟨_, rfl, ?_⟩
    rw [← hs]
    intro heq
    have hd := congrArg String.data heq
    simp only [standardHeaders, List.mem_cons, List.mem_singleton, List.not_mem_nil,
      or_false] at hname
    rcases hname with h | h | h | h | h | h | h | h | h | h | h <;>
    · subst h
      rw [hcr] at hd
      simp only [hnew, hold, hother, ne_eq, String.reduceEq, not_false_eq_true,
        String.data_append, List.append_assoc, List.append_cancel_left_eq,
        List.append_cancel_right_eq] at hd
      exact hdata hd.symm

/-- The claim C13 at a request whose `Content-Type` changes from `image/png` to
`image/jpeg`. -/
theorem strToSign_sensitive_witness :
    ∃ t, strToSign (fakeLib created) { Account := "acct", Key := "a2V5" }
        { Method := "PUT", URL := { Path := "/c/b.png", Query := [] },
          Header := Values.set [("Content-Type", ["image/png"])] "Content-Type"
            ("image/jpeg" :: []),
          Body := [] } = .ok t ∧
      t ≠ "PUT\n\n\n\n\nimage/png\n\n\n\n\n\n\n\n/acct/c/b.png" :=
  strToSign_sensitive (fakeLib created) { Account := "acct", Key := "a2V5" }
    { Method := "PUT", URL := { Path := "/c/b.png", Query := [] },
      Header := [("Content-Type", ["image/png"])], Body := [] }
    "Content-Type" (by decide) "image/png" "image/jpeg" [] (by decide) (by decide)
    "PUT\n\n\n\n\nimage/png\n\n\n\n\n\n\n\n/acct/c/b.png" (by rfl)

end AzureBlob
